import Mathlib

/-!
# oggreader: page-to-packet reassembly

A shallow embedding of `oggreader.go` (package `oggreader`) and theorems about it.

Modelling conventions.

* A byte is a `Fin 256`; Go's `int(b)` is `b.val`.  No integer of the program
  can overflow: the largest value computed is `27 + 255 + 255 * 255`.
* The source `io.Reader` is a reader over a finite byte sequence: it hands out
  its bytes in order and then reports `io.EOF`.  It is represented by the list
  of bytes not yet read.
* The sink `io.Writer` is a function that, given the `Write` calls made so far
  and the data of the current call, says whether the call fails and with which
  error.  Every `Write` call, failing or not, is recorded.
* The scratch buffer is a list of bytes whose capacity equals its length.
  Every slice expression of the program is checked against it; an expression
  out of range makes the run end in `Run.panic`.
* Loops are run on an iteration budget; a budget that runs out gives
  `Run.timeout`.  The entry points fix budgets for which this never happens.
-/

namespace Oggreader

/-! ## Data model -/

/-- A byte of the stream. -/
abbrev Byte := Fin 256

/-- `HeaderSize` is the header size. -/
def HeaderSize : Nat := 27

/-- `MaxSegmentSize` is the maximum segment size. -/
def MaxSegmentSize : Nat := 255

/-- `MaxPacketSize` is the maximum packet size. -/
def MaxPacketSize : Nat := MaxSegmentSize * 255

/-- `MaxPageSize` is the maximum page size. -/
def MaxPageSize : Nat := HeaderSize + MaxSegmentSize + MaxPacketSize

/-- The capture pattern `var oggs = [...]byte{'O', 'g', 'g', 'S'}`. -/
def oggs : List Byte := ['O', 'g', 'g', 'S'].map (fun c => Fin.ofNat c.toNat)

/-- The error values that `Decode` can return or that a sink can produce. -/
inductive Err where
  /-- `io.EOF` -/
  | EOF
  /-- `io.ErrUnexpectedEOF` -/
  | ErrUnexpectedEOF
  /-- `fmt.Errorf("invalid oggs header: %q % x", headerBuf[:4], headerBuf)`,
  carrying `headerBuf` -/
  | invalidOggs (headerBuf : List Byte)
  /-- `ErrBadSegs = errors.New("invalid segment table size")` -/
  | ErrBadSegs
  /-- `errors.New("buffer is too small")` -/
  | bufferTooSmall
  /-- `fmt.Errorf("failed to write a packet: %w", err)`: wraps `err` -/
  | writeFailed (err : Err)
  /-- Any other error value, which only a sink can produce -/
  | other (code : Nat)
  deriving DecidableEq, Repr

/-- What a call has done when it returns: the returned error (`none` is `nil`),
the `Write` calls made on `dst` in order, and the bytes of `src` left unread. -/
structure Outcome where
  err : Option Err
  writes : List (List Byte)
  rest : List Byte
  deriving DecidableEq, Repr

/-- How a run of a piece of the program ends. -/
inductive Run (α : Type) where
  /-- it finished with a result -/
  | done (a : α)
  /-- a slice or index expression was out of range -/
  | panic
  /-- the iteration budget of the model ran out -/
  | timeout
  deriving DecidableEq, Repr

/-- The sink `dst`: from the earlier `Write` calls and the data of this call to
the error of this call (`none` when the write succeeds). -/
abbrev Writer := List (List Byte) → List Byte → Option Err

/-- A sink that accepts every write. -/
def okWriter : Writer := fun _ _ => none

/-! ## Library calls -/

/-- The slice expression `buf[lo:hi]`: defined when `lo ≤ hi ≤ len(buf)`. -/
def slice (buf : List Byte) (lo hi : Nat) : Option (List Byte) :=
  if lo ≤ hi ∧ hi ≤ buf.length then some ((buf.drop lo).take (hi - lo)) else none

/-- What `io.ReadFull` gives back: its error, the source after the call and the
scratch buffer after the call. -/
structure ReadResult where
  err : Option Err
  src : List Byte
  buffer : List Byte
  deriving DecidableEq, Repr

/-- `io.ReadFull(src, buffer[lo:hi])` for an in-range window `lo ≤ hi ≤ len(buffer)`.
It reads `n = min (hi - lo) (len src)` bytes into the window.  The error is `nil`
when the window was filled (also when the window is empty, in which case the
source is not touched), `io.EOF` when no byte could be read, and
`io.ErrUnexpectedEOF` when some but not all bytes could be read. -/
def ReadFull (src buffer : List Byte) (lo hi : Nat) : ReadResult :=
  let n := min (hi - lo) src.length
  { err := if hi - lo ≤ n then none
           else if n = 0 then some Err.EOF else some Err.ErrUnexpectedEOF
    src := src.drop n
    buffer := buffer.take lo ++ src.take n ++ buffer.drop (lo + n) }

/-! ## The program -/

/-- `type pageHeader struct { Nsegs byte }` -/
structure pageHeader where
  Nsegs : Byte
  deriving DecidableEq, Repr

/-- `func (ph *pageHeader) Read(b []byte) (int, error)`: the header after the
call, the count and the error.  `b[26]` is in range because `len(b) = 27`. -/
def pageHeader.Read (ph : pageHeader) (b : List Byte) : pageHeader × Nat × Option Err :=
  if b.length ≠ HeaderSize then (ph, 0, some Err.ErrUnexpectedEOF)
  else ({ Nsegs := b.getD 26 0 }, HeaderSize, none)

/-- The loop `for ixseg < nsegs { ... }` of `decode` (lines 112 to 121): from
`ixseg` and `end` before the loop to `ixseg` and `end` after it. -/
def segLoop (segTblBuf : List Byte) (nsegs : Nat) : Nat → Nat → Nat → Run (Nat × Nat)
  | fuel, ixseg, end_ =>
    if ixseg < nsegs then
      match fuel with
      | 0 => Run.timeout
      | fuel + 1 =>
        match segTblBuf.get? ixseg with
        | none => Run.panic
        | some segment =>
          if segment < 0xFF then Run.done (ixseg + 1, end_ + segment.val)
          else segLoop segTblBuf nsegs fuel (ixseg + 1) (end_ + segment.val)
    else Run.done (ixseg, end_)

/-- The packet loop of `decode` (lines 111 to 133): from the writes made so far
and `ixseg`, `start`, `end` to the error to return, if any, and the writes made. -/
def packetLoop (w : Writer) (segTblBuf packetBuf : List Byte) (nsegs : Nat) :
    Nat → List (List Byte) → Nat → Nat → Nat → Run (Option Err × List (List Byte))
  | 0, _, _, _, _ => Run.timeout
  | fuel + 1, writes, ixseg, start, end_ =>
    match segLoop segTblBuf nsegs (nsegs - ixseg) ixseg end_ with
    | Run.timeout => Run.timeout
    | Run.panic => Run.panic
    | Run.done (ixseg, end_) =>
      match slice packetBuf start end_ with
      | none => Run.panic
      | some data =>
        match w writes data with
        | some err => Run.done (some (Err.writeFailed err), writes ++ [data])
        | none =>
          if ixseg ≥ nsegs then Run.done (none, writes ++ [data])
          else packetLoop w segTblBuf packetBuf nsegs fuel (writes ++ [data]) ixseg end_ end_

/-- How one iteration of the page loop of `decode` ends. -/
inductive Iter where
  /-- `decode` returns, or the run ends otherwise -/
  | stop (r : Run Outcome)
  /-- the loop goes on to its next iteration with these writes made, this source
  left and this scratch buffer -/
  | next (writes : List (List Byte)) (src buffer : List Byte)
  deriving DecidableEq, Repr

/-- The body of the page loop of `decode` (lines 73 to 133).  `headerBuf` is the
window `buffer[0:27]`, `segTblBuf` the window `buffer[27:27+nsegs]` and
`packetBuf` the window `buffer[27+nsegs:27+nsegs+pageDataLen]`; the contents of a
window are taken from the buffer at the point where the program reads them.  The
variables `ixseg`, `start`, `end` and `header` are declared outside the loop but
assigned in every iteration before they are read, so they are not carried over. -/
def pageBody (w : Writer) (writes : List (List Byte)) (src buffer : List Byte) : Iter :=
  let r := ReadFull src buffer 0 HeaderSize
  match r.err with
  | some err => Iter.stop (Run.done ⟨some err, writes, r.src⟩)
  | none =>
    let headerBuf := r.buffer.take HeaderSize
    if headerBuf.take 4 ≠ oggs then
      Iter.stop (Run.done ⟨some (Err.invalidOggs headerBuf), writes, r.src⟩)
    else
      match pageHeader.Read ⟨0⟩ headerBuf with
      | (_, _, some err) => Iter.stop (Run.done ⟨some err, writes, r.src⟩)
      | (header, _, none) =>
        if header.Nsegs < 1 then Iter.stop (Run.done ⟨some Err.ErrBadSegs, writes, r.src⟩)
        else
          let nsegs := header.Nsegs.val
          match slice r.buffer HeaderSize (HeaderSize + nsegs) with
          | none => Iter.stop Run.panic
          | some _ =>
            let r := ReadFull r.src r.buffer HeaderSize (HeaderSize + nsegs)
            match r.err with
            | some err => Iter.stop (Run.done ⟨some err, writes, r.src⟩)
            | none =>
              let segTblBuf := (r.buffer.drop HeaderSize).take nsegs
              let pageDataLen := (segTblBuf.map Fin.val).sum
              match slice r.buffer (HeaderSize + nsegs) (HeaderSize + nsegs + pageDataLen) with
              | none => Iter.stop Run.panic
              | some _ =>
                let r := ReadFull r.src r.buffer (HeaderSize + nsegs)
                  (HeaderSize + nsegs + pageDataLen)
                match r.err with
                | some err => Iter.stop (Run.done ⟨some err, writes, r.src⟩)
                | none =>
                  let segTblBuf := (r.buffer.drop HeaderSize).take nsegs
                  let packetBuf := (r.buffer.drop (HeaderSize + nsegs)).take pageDataLen
                  match packetLoop w segTblBuf packetBuf nsegs nsegs writes 0 0 0 with
                  | Run.timeout => Iter.stop Run.timeout
                  | Run.panic => Iter.stop Run.panic
                  | Run.done (some err, writes) =>
                    Iter.stop (Run.done ⟨some err, writes, r.src⟩)
                  | Run.done (none, writes) => Iter.next writes r.src r.buffer

/-- The page loop `for { ... }` of `decode` (lines 72 to 134). -/
def pageLoop (w : Writer) :
    Nat → List (List Byte) → List Byte → List Byte → Run Outcome
  | 0, _, _, _ => Run.timeout
  | fuel + 1, writes, src, buffer =>
    match pageBody w writes src buffer with
    | Iter.stop r => r
    | Iter.next writes src buffer => pageLoop w fuel writes src buffer

/-- `func decode(dst io.Writer, src io.Reader, buffer []byte) error`.  The page
loop consumes at least 28 bytes of the source in every iteration that does not
return, so a budget of `len(src) + 1` iterations is never used up. -/
def decode (w : Writer) (src buffer : List Byte) : Run Outcome :=
  match slice buffer 0 HeaderSize with
  | none => Run.panic
  | some _ => pageLoop w (src.length + 1) [] src buffer

/-- `func DecodeBuf(dst io.Writer, src io.Reader, buf []byte) error` -/
def DecodeBuf (w : Writer) (src buf : List Byte) : Run Outcome :=
  if buf.length < MaxPageSize then Run.done ⟨some Err.bufferTooSmall, [], src⟩
  else
    match decode w src buf with
    | Run.done o => if o.err = some Err.EOF then Run.done { o with err := none } else Run.done o
    | r => r

/-- `func Decode(dst io.Writer, src io.Reader) error`, with
`make([]byte, MaxPageSize)` as the scratch buffer. -/
def Decode (w : Writer) (src : List Byte) : Run Outcome :=
  DecodeBuf w src (List.replicate MaxPageSize 0)

/-! ## Streams: pages and lacing -/

/-- A page as laid out on the wire: the 22 header bytes at offsets 4 to 25
(version, flags, granule position, serial, sequence, checksum), the segment
table and the payload. -/
structure Page where
  fields : List Byte
  table : List Byte
  payload : List Byte
  deriving DecidableEq, Repr

/-- The sum of the lacing values of a segment table. -/
def tableSum (table : List Byte) : Nat := (table.map Fin.val).sum

/-- A complete valid page: 22 bytes of uninterpreted header fields, between 1
and 255 lacing values, and a payload as long as the sum of the lacing values. -/
def Page.valid (p : Page) : Prop :=
  p.fields.length = 22 ∧ 1 ≤ p.table.length ∧ p.table.length ≤ 255 ∧
    p.payload.length = tableSum p.table

instance (p : Page) : Decidable p.valid := by unfold Page.valid; infer_instance

/-- The 27 header bytes of a page: capture pattern, fields, segment count. -/
def Page.header (p : Page) : List Byte :=
  oggs ++ p.fields ++ [Fin.ofNat p.table.length]

/-- The bytes of a page on the wire. -/
def Page.encode (p : Page) : List Byte :=
  p.header ++ p.table ++ p.payload

/-- The bytes of a sequence of pages on the wire. -/
def encodePages (pages : List Page) : List Byte :=
  (pages.map Page.encode).flatten

/-- The standard lacing of a packet: one 255 for every full chunk of 255 bytes,
then one value below 255 for the remainder, also when the remainder is 0. -/
def lacing (packet : List Byte) : List Byte :=
  List.replicate (packet.length / 255) 255 ++ [Fin.ofNat (packet.length % 255)]

/-! ## A buffer-free description of the decoder

`readPage`, `splitWrites`, `emit` and `streamLoop` describe the page loop without
the scratch buffer.  They are proved equal to the program below and are used to
reason about it and to evaluate it on concrete streams. -/

/-- The first run of a table: how many lacing values the inner segment loop
consumes and the sum of these values. -/
def scan : List Byte → Nat × Nat
  | [] => (0, 0)
  | s :: t => if s < 0xFF then (1, s.val) else ((scan t).1 + 1, (scan t).2 + s.val)

/-- The writes of a page: for the table `t`, `acc` bytes of the payload `p`
already counted for the current write. -/
def splitWrites : List Byte → Nat → List Byte → List (List Byte)
  | [], acc, p => if acc = 0 then [] else [p.take acc]
  | s :: t, acc, p =>
    if s < 0xFF then p.take (acc + s.val) :: splitWrites t 0 (p.drop (acc + s.val))
    else splitWrites t (acc + s.val) p

/-- The writes that the decoder makes for a page. -/
def Page.writes (p : Page) : List (List Byte) := splitWrites p.table 0 p.payload

/-- Hands the data of `new` to the sink one call at a time, stopping at the
first failing call: the error to return and the calls made. -/
def emit (w : Writer) : List (List Byte) → List (List Byte) → Option Err × List (List Byte)
  | writes, [] => (none, writes)
  | writes, d :: ds =>
    match w writes d with
    | some err => (some (Err.writeFailed err), writes ++ [d])
    | none => emit w (writes ++ [d]) ds

/-- What reading one page from the source gives. -/
inductive PageRead where
  /-- reading failed with `err`, leaving `rest` unread -/
  | fail (err : Err) (rest : List Byte)
  /-- a page was read, leaving `rest` unread -/
  | page (table payload rest : List Byte)
  deriving DecidableEq, Repr

/-- The error of a read that found fewer bytes than it needed. -/
def shortRead (src : List Byte) : Err :=
  if src.length = 0 then Err.EOF else Err.ErrUnexpectedEOF

/-- Reading one page from the source (lines 73 to 105 of `decode`). -/
def readPage (src : List Byte) : PageRead :=
  if src.length < HeaderSize then PageRead.fail (shortRead src) []
  else if src.take 4 ≠ oggs then
    PageRead.fail (Err.invalidOggs (src.take HeaderSize)) (src.drop HeaderSize)
  else if (src.getD 26 0) < 1 then PageRead.fail Err.ErrBadSegs (src.drop HeaderSize)
  else
    let nsegs := (src.getD 26 0).val
    let src1 := src.drop HeaderSize
    if src1.length < nsegs then PageRead.fail (shortRead src1) []
    else
      let table := src1.take nsegs
      let src2 := src1.drop nsegs
      if src2.length < tableSum table then PageRead.fail (shortRead src2) []
      else PageRead.page table (src2.take (tableSum table)) (src2.drop (tableSum table))

/-- One iteration of the page loop without the scratch buffer, as an `Iter`
whose next buffer is `b`. -/
def streamBody (w : Writer) (writes : List (List Byte)) (src b : List Byte) : Iter :=
  match readPage src with
  | PageRead.fail err rest => Iter.stop (Run.done ⟨some err, writes, rest⟩)
  | PageRead.page table payload rest =>
    match emit w writes (splitWrites table 0 payload) with
    | (some err, writes) => Iter.stop (Run.done ⟨some err, writes, rest⟩)
    | (none, writes) => Iter.next writes rest b

/-- The page loop without the scratch buffer. -/
def streamLoop (w : Writer) : Nat → List (List Byte) → List Byte → Run Outcome
  | 0, _, _ => Run.timeout
  | fuel + 1, writes, src =>
    match readPage src with
    | PageRead.fail err rest => Run.done ⟨some err, writes, rest⟩
    | PageRead.page table payload rest =>
      match emit w writes (splitWrites table 0 payload) with
      | (some err, writes) => Run.done ⟨some err, writes, rest⟩
      | (none, writes) => streamLoop w fuel writes rest

/-- The outcome of `Decode` computed without the scratch buffer. -/
def decodeStream (w : Writer) (src : List Byte) : Run Outcome :=
  match streamLoop w (src.length + 1) [] src with
  | Run.done o => if o.err = some Err.EOF then Run.done { o with err := none } else Run.done o
  | r => r

/-- All the writes that the decoder makes for a sequence of pages. -/
def pagesWrites (pages : List Page) : List (List Byte) :=
  (pages.map Page.writes).flatten

/-- What `DecodeBuf` makes of the result of `decode`: `io.EOF` becomes `nil`. -/
def finish : Run Outcome → Run Outcome
  | Run.done o => if o.err = some Err.EOF then Run.done { o with err := none } else Run.done o
  | r => r

/-- The table is empty or its last lacing value is below 255: no packet is left
  unfinished at the end of the table. -/
def endsPacket (t : List Byte) : Prop := ∀ s, t.getLast? = some s → s < 0xFF

instance (t : List Byte) : Decidable (endsPacket t) := by
  unfold endsPacket
  cases t.getLast? with
  | none => exact isTrue (by simp)
  | some x =>
    by_cases h : x < 0xFF
    · exact isTrue (by intro s hs; cases hs; exact h)
    · exact isFalse (by intro hh; exact h (hh x rfl))

/-! ## Concrete streams -/

/-- Three packets of 3, 1 and 0 bytes. -/
def c1Packets : List (List Byte) := [[1, 2, 3], [4], []]

/-- The packets `c1Packets` laid out into two pages. -/
def c1Pages : List Page :=
  [⟨List.replicate 22 0, [3, 1], [1, 2, 3, 4]⟩, ⟨List.replicate 22 9, [0], []⟩]

/-- A packet of 300 bytes. -/
def c2Packet : List Byte := List.replicate 300 7

/-- The packet `c2Packet`, whose lacing is `[255, 45]`, laid across two pages. -/
def c2Pages : List Page :=
  [⟨List.replicate 22 0, [255], List.replicate 255 7⟩,
   ⟨List.replicate 22 0, [45], List.replicate 45 7⟩]

/-- The packet `c2Packet` on one page, with the table `[255, 45]`. -/
def c2OnePage : Page := ⟨List.replicate 22 0, [255, 45], List.replicate 300 7⟩

/-- The first page of a packet of 600 bytes: the table `[255]` and the first 255 bytes. -/
def c3First : Page := ⟨List.replicate 22 0, [255], List.replicate 255 1⟩

/-- The second page of a packet of 600 bytes: the table `[255, 90]` and the last 345
bytes. -/
def c3Last : Page := ⟨List.replicate 22 0, [255, 90], List.replicate 345 2⟩

/-- A page with the table `[255, 255, 0]` and 510 bytes of payload. -/
def c4Page : Page := ⟨List.replicate 22 0, [255, 255, 0], List.replicate 510 3⟩

/-- A page with the table `[2, 0, 1]` and the payload `[7, 8, 9]`. -/
def smallPage : Page := ⟨List.replicate 22 0, [2, 0, 1], [7, 8, 9]⟩

/-- The header of a page that announces one segment, with nothing after it. -/
def cutAfterHeader : List Byte := oggs ++ List.replicate 22 0 ++ [1]

/-- The header and the segment table `[5]` of a page, with none of the 5 payload bytes. -/
def cutAfterTable : List Byte := oggs ++ List.replicate 22 0 ++ [1] ++ [5]

/-- The header and the segment table `[5]` of a page, with 2 of the 5 payload bytes. -/
def cutInPayload : List Byte := oggs ++ List.replicate 22 0 ++ [1] ++ [5] ++ [1, 2]

/-- A header of 27 bytes that starts with `OggX` and has 0 at offset 26, then 3 bytes. -/
def badHeader : List Byte := [79, 103, 103, 88] ++ List.replicate 22 0 ++ [0] ++ [4, 5, 6]

/-- A header of 27 bytes whose byte at offset 26 is 3. -/
def c13Header : List Byte := oggs ++ List.replicate 22 0 ++ [3]

/-- Every `Write` call of `ws`, made in this order on the sink `w`, succeeds: the call
number `i` is made after the calls `ws[0], ..., ws[i-1]` and returns no error. -/
def accepted (w : Writer) (ws : List (List Byte)) : Prop :=
  ∀ (i : Nat) (h : i < ws.length), w (ws.take i) ws[i] = none

instance (w : Writer) (ws : List (List Byte)) : Decidable (accepted w ws) := by
  unfold accepted; infer_instance

/-- A sink whose second `Write` call fails with `io.EOF`; every other call succeeds. -/
def failSecond : Writer := fun ws _ => if ws.length = 1 then some Err.EOF else none

/-- A tail on which reading the next page fails: fewer than 27 bytes (a truncated header,
or nothing at all); or 27 bytes or more that do not start with the capture pattern; or a
header with the segment count 0, followed by anything; or a header with the segment count
`n ≥ 1` followed by fewer than `n` bytes of segment table; or a header and a segment table
followed by fewer payload bytes than the sum of the table. -/
def failingTail (tail : List Byte) : Prop :=
  tail.length < 27 ∨
  (27 ≤ tail.length ∧ tail.take 4 ≠ oggs) ∨
  (∃ fields rest : List Byte, fields.length = 22 ∧ tail = oggs ++ fields ++ [0] ++ rest) ∨
  (∃ (fields : List Byte) (n : Byte) (part : List Byte), fields.length = 22 ∧ 1 ≤ n.val ∧
    part.length < n.val ∧ tail = oggs ++ fields ++ [n] ++ part) ∨
  (∃ fields table part : List Byte, fields.length = 22 ∧ 1 ≤ table.length ∧
    table.length ≤ 255 ∧ part.length < tableSum table ∧
    tail = oggs ++ fields ++ [Fin.ofNat table.length] ++ table ++ part)

/-- Two sources that differ at most in header bytes at offsets 4 to 25 of their pages.
`same`: the sources are equal.  `page`: both start with a complete valid page, with the
same segment table and payload and any header fields, and what follows is related.
`header`: both start with the capture pattern `OggS`, go on with header fields `f` and `g`
of the same length (22 bytes, or fewer when the source ends inside the header), and end
with the same bytes `r`, which start with the byte at offset 26; this is for a last page
that is not complete or not valid. -/
inductive sameButFields : List Byte → List Byte → Prop where
  | same (s : List Byte) : sameButFields s s
  | page (p q : Page) (s t : List Byte) : p.valid → q.valid → p.table = q.table →
      p.payload = q.payload → sameButFields s t → sameButFields (p.encode ++ s) (q.encode ++ t)
  | header (f g r : List Byte) : f.length = g.length → f.length ≤ 22 →
      (f.length < 22 → r = []) → sameButFields (oggs ++ f ++ r) (oggs ++ g ++ r)

/-- The page `smallPage` with other header fields. -/
def smallPage2 : Page := ⟨List.replicate 22 9, [2, 0, 1], [7, 8, 9]⟩

/-- The groups of a segment table, in the words of the specification: a group is a maximal
run of values 255 closed by the first value below 255; when the table ends with 255, the
trailing run of values 255 is one final group.  `cur` is the group under construction. -/
def groups : List Byte → List Byte → List (List Byte)
  | [], cur => if cur = [] then [] else [cur]
  | s :: t, cur => if s < 0xFF then (cur ++ [s]) :: groups t [] else groups t (cur ++ [s])

/-- Consecutive, non-overlapping slices of `p`, in order, of the lengths `ns`: the first
`ns[0]` bytes, then the next `ns[1]` bytes, and so on. -/
def cut : List Nat → List Byte → List (List Byte)
  | [], _ => []
  | n :: ns, p => p.take n :: cut ns (p.drop n)

/-- A page with the table `[255, 3, 0, 255, 255]`: two closed groups and a trailing run. -/
def c15Page : Page := ⟨List.replicate 22 0, [255, 3, 0, 255, 255], List.replicate 768 4⟩

/-- What one iteration of the page loop shows apart from the scratch buffer it leaves. -/
def Iter.observe : Iter → Iter
  | Iter.stop r => Iter.stop r
  | Iter.next writes src _ => Iter.next writes src []

/-! ## Lemmas -/

theorem scan_fst_pos (s : Byte) (t : List Byte) : 1 ≤ (scan (s :: t)).1 := by
  unfold scan; split <;> simp

theorem scan_fst_le (t : List Byte) : (scan t).1 ≤ t.length := by
  induction t with
  | nil => simp [scan]
  | cons s t ih =>
    unfold scan; split
    · simp
    · simp; omega

theorem tableSum_cons (s : Byte) (t : List Byte) : tableSum (s :: t) = s.val + tableSum t := by
  simp [tableSum]

theorem tableSum_nil : tableSum [] = 0 := rfl

theorem tableSum_append (a b : List Byte) : tableSum (a ++ b) = tableSum a + tableSum b := by
  simp [tableSum]

theorem scan_sum (t : List Byte) : (scan t).2 + tableSum (t.drop (scan t).1) = tableSum t := by
  induction t with
  | nil => simp [scan, tableSum]
  | cons s t ih =>
    unfold scan; split
    · simp [tableSum_cons]
    · simp [tableSum_cons]; omega

theorem tableSum_le (t : List Byte) : tableSum t ≤ 255 * t.length := by
  induction t with
  | nil => simp [tableSum]
  | cons s t ih => rw [tableSum_cons, List.length_cons]; omega

theorem segLoop_eq (t : List Byte) : ∀ (fuel ixseg e : Nat), ixseg ≤ t.length →
    t.length - ixseg ≤ fuel →
    segLoop t t.length fuel ixseg e =
      Run.done (ixseg + (scan (t.drop ixseg)).1, e + (scan (t.drop ixseg)).2) := by
  intro fuel
  induction fuel with
  | zero =>
    intro ixseg e h1 h2
    have : ixseg = t.length := by omega
    subst this
    unfold segLoop
    simp [scan]
  | succ fuel ih =>
    intro ixseg e h1 h2
    unfold segLoop
    by_cases h : ixseg < t.length
    · simp only [h, if_true]
      rw [List.drop_eq_getElem_cons h]
      simp only [List.get?_eq_getElem?, List.getElem?_eq_getElem h]
      unfold scan
      by_cases hs : t[ixseg] < 0xFF
      · simp [hs]
      · simp only [hs, if_false]
        rw [ih (ixseg + 1) _ (by omega) (by omega)]
        simp; omega
    · have : ixseg = t.length := by omega
      subst this
      simp [scan]

theorem val_of_not_lt (s : Byte) (h : ¬ s < 0xFF) : s.val = 255 := by
  have h2 : ¬ s.val < 255 := fun h3 => h (Fin.lt_def.mpr h3)
  omega

theorem scan_cons_of_lt (s : Byte) (t : List Byte) (h : s < 0xFF) :
    scan (s :: t) = (1, s.val) := by
  rw [scan, if_pos h]

theorem scan_cons_of_not_lt (s : Byte) (t : List Byte) (h : ¬ s < 0xFF) :
    scan (s :: t) = ((scan t).1 + 1, (scan t).2 + s.val) := by
  rw [scan, if_neg h]

theorem splitWrites_scan (s : Byte) (t : List Byte) : ∀ (acc : Nat) (p : List Byte),
    splitWrites (s :: t) acc p =
      p.take (acc + (scan (s :: t)).2) ::
        splitWrites ((s :: t).drop (scan (s :: t)).1) 0 (p.drop (acc + (scan (s :: t)).2)) := by
  induction t generalizing s with
  | nil =>
    intro acc p
    by_cases hs : s < 0xFF
    · simp [splitWrites, scan, hs]
    · have : acc + s.val ≠ 0 := by
        have := val_of_not_lt s hs
        omega
      simp [splitWrites, scan, hs, this]
  | cons s2 t ih =>
    intro acc p
    by_cases hs : s < 0xFF
    · simp [splitWrites, scan, hs]
    · rw [splitWrites, if_neg hs]
      rw [ih s2 (acc + s.val) p]
      rw [scan_cons_of_not_lt s (s2 :: t) hs]
      simp only [List.drop_succ_cons]
      have e : acc + s.val + (scan (s2 :: t)).2 = acc + ((scan (s2 :: t)).2 + s.val) := by omega
      rw [e]

theorem slice_eq (buf : List Byte) (lo hi : Nat) (h1 : lo ≤ hi) (h2 : hi ≤ buf.length) :
    slice buf lo hi = some ((buf.drop lo).take (hi - lo)) := by
  simp [slice, h1, h2]

theorem packetLoop_eq (w : Writer) (t p : List Byte) : ∀ (fuel : Nat) (writes : List (List Byte))
    (ixseg start : Nat), ixseg < t.length → t.length - ixseg ≤ fuel →
    start + tableSum (t.drop ixseg) ≤ p.length →
    packetLoop w t p t.length fuel writes ixseg start start =
      Run.done (emit w writes (splitWrites (t.drop ixseg) 0 (p.drop start))) := by
  intro fuel
  induction fuel with
  | zero => intro writes ixseg start h1 h2; omega
  | succ fuel ih =>
    intro writes ixseg start h1 h2 h3
    unfold packetLoop
    rw [segLoop_eq t _ ixseg start (by omega) (by omega)]
    simp only
    have hd := List.drop_eq_getElem_cons h1
    have hsum := scan_sum (t.drop ixseg)
    have hpos : 1 ≤ (scan (t.drop ixseg)).1 := by rw [hd]; exact scan_fst_pos _ _
    have hle : (scan (t.drop ixseg)).1 ≤ t.length - ixseg := by
      have := scan_fst_le (t.drop ixseg)
      simpa using this
    rw [slice_eq _ _ _ (by omega) (by omega)]
    simp only
    have hsw : splitWrites (t.drop ixseg) 0 (p.drop start) =
        (p.drop start).take (scan (t.drop ixseg)).2 ::
          splitWrites (t.drop (ixseg + (scan (t.drop ixseg)).1)) 0
            (p.drop (start + (scan (t.drop ixseg)).2)) := by
      conv => lhs; rw [hd]
      rw [splitWrites_scan, ← hd]
      simp [List.drop_drop, Nat.add_comm]
    rw [hsw, emit]
    have e1 : start + (scan (t.drop ixseg)).2 - start = (scan (t.drop ixseg)).2 := by omega
    rw [e1]
    cases hw : w writes ((p.drop start).take (scan (t.drop ixseg)).2) with
    | some err => simp
    | none =>
      simp only
      by_cases hfin : ixseg + (scan (t.drop ixseg)).1 ≥ t.length
      · simp only [hfin, if_true]
        rw [List.drop_eq_nil_of_le hfin]
        simp [splitWrites, emit]
      · simp only [hfin, if_false]
        rw [ih _ _ _ (by omega) (by omega)]
        rw [List.drop_drop] at hsum
        omega

theorem readFull_ok (src buffer : List Byte) (lo hi : Nat) (h1 : lo ≤ hi)
    (h2 : hi ≤ buffer.length) (h3 : hi - lo ≤ src.length) :
    ∃ b, ReadFull src buffer lo hi = ⟨none, src.drop (hi - lo), b⟩ ∧
      b.length = buffer.length ∧ (b.drop lo).take (hi - lo) = src.take (hi - lo) ∧
      b.take lo = buffer.take lo := by
  refine ⟨buffer.take lo ++ src.take (hi - lo) ++ buffer.drop (lo + (hi - lo)), ?_, ?_, ?_, ?_⟩
  · simp [ReadFull, Nat.min_eq_left h3]
  · simp only [List.length_append, List.length_take, List.length_drop]
    omega
  · have hl : (buffer.take lo).length = lo := by simp; omega
    rw [List.append_assoc, List.drop_left' hl]
    apply List.take_left'
    simp; omega
  · have hl : (buffer.take lo).length = lo := by simp; omega
    rw [List.append_assoc, List.take_left' hl]

theorem readFull_short (src buffer : List Byte) (lo hi : Nat) (h : src.length < hi - lo) :
    (ReadFull src buffer lo hi).err = some (shortRead src) ∧
      (ReadFull src buffer lo hi).src = [] := by
  have hm : min (hi - lo) src.length = src.length := Nat.min_eq_right (by omega)
  constructor
  · simp only [ReadFull, hm, shortRead]
    rw [if_neg (by omega)]
    split <;> rfl
  · simp [ReadFull, hm]

theorem window_of_take_eq (b b0 : List Byte) (a m lo : Nat) (h : a + m ≤ lo)
    (e : b.take lo = b0.take lo) : (b.drop a).take m = (b0.drop a).take m := by
  have h1 : ∀ c : List Byte, (c.drop a).take m = ((c.take lo).drop a).take m := by
    intro c
    rw [List.take_drop, List.take_drop, List.take_take, Nat.min_eq_left (by omega)]
  rw [h1 b, h1 b0, e]

theorem MaxPageSize_eq : MaxPageSize = 65307 := by
  simp [MaxPageSize, HeaderSize, MaxSegmentSize, MaxPacketSize]

theorem Read_take (ph : pageHeader) (src : List Byte) (h : 27 ≤ src.length) :
    pageHeader.Read ph (src.take HeaderSize) = (⟨src.getD 26 0⟩, HeaderSize, none) := by
  have hl : (src.take HeaderSize).length = HeaderSize := by
    simp only [HeaderSize, List.length_take]; omega
  have hg : (src.take HeaderSize).getD 26 0 = src.getD 26 0 := by
    simp only [HeaderSize, List.getD_eq_getElem?_getD]
    rw [List.getElem?_take_of_lt (by omega)]
  simp only [pageHeader.Read, hl, ne_eq, not_true_eq_false, if_false, hg]

theorem pageBody_eq (w : Writer) (writes : List (List Byte)) (src buffer : List Byte)
    (hb : MaxPageSize ≤ buffer.length) :
    ∃ b, b.length = buffer.length ∧ pageBody w writes src buffer = streamBody w writes src b := by
  have hb2 : 65307 ≤ buffer.length := by rw [← MaxPageSize_eq]; exact hb
  unfold pageBody streamBody readPage
  by_cases h0 : src.length < HeaderSize
  · obtain ⟨e1, e2⟩ := readFull_short src buffer 0 HeaderSize (by simpa using h0)
    refine ⟨buffer, rfl, ?_⟩
    simp only [e1, e2, h0, if_true]
  · have h0n : 27 ≤ src.length := by simp only [HeaderSize] at h0; omega
    obtain ⟨b1, e1, hl1, hw1, -⟩ := readFull_ok src buffer 0 HeaderSize (by omega)
      (by simp only [HeaderSize]; omega) (by simp only [HeaderSize]; omega)
    simp only [Nat.sub_zero, List.drop_zero] at e1 hw1
    rw [e1]
    simp only [h0, if_false, hw1]
    have ht4 : (src.take HeaderSize).take 4 = src.take 4 := by
      rw [List.take_take]; rfl
    rw [ht4]
    by_cases hc : src.take 4 = oggs
    · simp only [hc, ne_eq, not_true_eq_false, if_false]
      rw [Read_take _ src h0n]
      simp only
      by_cases hn : src.getD 26 0 < 1
      · refine ⟨buffer, rfl, ?_⟩
        simp only [hn, if_true]
      · simp only [hn, if_false]
        have hnv := (src.getD 26 0).isLt
        have hn1 : ¬ (src.getD 26 0).val < 1 := fun h => hn (Fin.lt_def.mpr h)
        generalize hnd : (src.getD 26 0).val = nsegs at hnv hn1 ⊢
        rw [slice_eq _ _ _ (by omega) (by simp only [HeaderSize]; omega)]
        simp only
        by_cases h1 : (src.drop HeaderSize).length < nsegs
        · obtain ⟨e1, e2⟩ := readFull_short (src.drop HeaderSize) b1 HeaderSize
            (HeaderSize + nsegs) (by omega)
          refine ⟨buffer, rfl, ?_⟩
          simp only [e1, e2, h1, if_true]
        · obtain ⟨b2, e2, hl2, hw2, -⟩ := readFull_ok (src.drop HeaderSize) b1 HeaderSize
            (HeaderSize + nsegs) (by omega) (by simp only [HeaderSize]; omega) (by omega)
          simp only [Nat.add_sub_cancel_left] at e2 hw2
          rw [e2]
          simp only [h1, if_false, hw2]
          have hsum : ∀ t : List Byte, (t.map Fin.val).sum = tableSum t := fun _ => rfl
          rw [hsum]
          have htl : ((src.drop HeaderSize).take nsegs).length = nsegs := by
            rw [List.length_take]; omega
          have hts := tableSum_le ((src.drop HeaderSize).take nsegs)
          rw [htl] at hts
          generalize htab : (src.drop HeaderSize).take nsegs = table at *
          generalize hlen : tableSum table = len at *
          have hlen2 : len ≤ 255 * 255 := by
            have : 255 * nsegs ≤ 255 * 255 := Nat.mul_le_mul_left 255 (by omega)
            omega
          rw [slice_eq _ _ _ (by omega) (by simp only [HeaderSize]; omega)]
          simp only
          by_cases h2 : ((src.drop HeaderSize).drop nsegs).length < len
          · obtain ⟨e3, e4⟩ := readFull_short ((src.drop HeaderSize).drop nsegs) b2
              (HeaderSize + nsegs) (HeaderSize + nsegs + len) (by omega)
            refine ⟨buffer, rfl, ?_⟩
            simp only [e3, e4, h2, if_true]
          · obtain ⟨b3, e3, hl3, hw3, hp3⟩ := readFull_ok ((src.drop HeaderSize).drop nsegs) b2
              (HeaderSize + nsegs) (HeaderSize + nsegs + len) (by omega)
              (by simp only [HeaderSize]; omega) (by omega)
            simp only [Nat.add_sub_cancel_left] at e3 hw3
            rw [e3]
            simp only [h2, if_false, hw3]
            have hseg : (b3.drop HeaderSize).take nsegs = table := by
              rw [window_of_take_eq b3 b2 HeaderSize nsegs (HeaderSize + nsegs) (Nat.le_refl _) hp3]
              exact hw2
            rw [hseg]
            have hpl := packetLoop_eq w table (((src.drop HeaderSize).drop nsegs).take len)
              nsegs writes 0 0 (by omega) (by omega)
              (by simp only [List.drop_zero, List.length_take]; omega)
            rw [htl] at hpl
            rw [hpl]
            simp only [List.drop_zero]
            refine ⟨b3, by omega, ?_⟩
            split <;> simp_all
    · refine ⟨buffer, rfl, ?_⟩
      simp only [hc, ne_eq, not_false_eq_true, if_true]

theorem pageLoop_eq_streamLoop (w : Writer) : ∀ (fuel : Nat) (writes : List (List Byte))
    (src buffer : List Byte), MaxPageSize ≤ buffer.length →
    pageLoop w fuel writes src buffer = streamLoop w fuel writes src := by
  intro fuel
  induction fuel with
  | zero => intro writes src buffer _; rfl
  | succ fuel ih =>
    intro writes src buffer hb
    obtain ⟨b, hbl, hbody⟩ := pageBody_eq w writes src buffer hb
    rw [pageLoop, streamLoop, hbody]
    unfold streamBody
    cases readPage src with
    | fail err rest => rfl
    | page table payload rest =>
      simp only
      rcases emit w writes (splitWrites table 0 payload) with ⟨_ | err, ws⟩
      · simp only
        exact ih ws rest b (by omega)
      · rfl

theorem DecodeBuf_eq_decodeStream (w : Writer) (src buf : List Byte)
    (hb : MaxPageSize ≤ buf.length) : DecodeBuf w src buf = decodeStream w src := by
  have h27 : HeaderSize ≤ buf.length := by
    rw [MaxPageSize_eq] at hb
    simp only [HeaderSize]; omega
  unfold DecodeBuf decode decodeStream
  rw [if_neg (by omega), slice_eq _ _ _ (Nat.zero_le _) h27]
  simp only
  rw [pageLoop_eq_streamLoop w _ _ _ _ hb]

theorem Decode_eq_decodeStream (w : Writer) (src : List Byte) :
    Decode w src = decodeStream w src :=
  DecodeBuf_eq_decodeStream w src _ (by simp)

theorem oggs_length : oggs.length = 4 := rfl

theorem Page.header_length (p : Page) (hv : p.valid) : p.header.length = 27 := by
  obtain ⟨hf, -, -, -⟩ := hv
  simp [Page.header, oggs_length, hf]

theorem Page.header_take4 (p : Page) : p.header.take 4 = oggs := by
  unfold Page.header
  rw [List.append_assoc]
  exact List.take_left' oggs_length

theorem Page.header_getD (p : Page) (hv : p.valid) (tail : List Byte) :
    (p.header ++ tail).getD 26 0 = Fin.ofNat p.table.length := by
  obtain ⟨hf, -, -, -⟩ := hv
  have hl : (oggs ++ p.fields).length = 26 := by simp [oggs_length, hf]
  unfold Page.header
  rw [List.getD_eq_getElem?_getD, List.append_assoc, List.getElem?_append_right (by omega)]
  simp [hl]

theorem ofNat_val (n : Nat) (h : n ≤ 255) : (Fin.ofNat n : Byte).val = n := by
  simp [Fin.ofNat]; omega

theorem readPage_encode (p : Page) (hv : p.valid) (tail : List Byte) :
    readPage (p.encode ++ tail) = PageRead.page p.table p.payload tail := by
  have hh := p.header_length hv
  have hg := p.header_getD hv (p.table ++ p.payload ++ tail)
  obtain ⟨hf, h1, h255, hp⟩ := hv
  have hsrc : p.encode ++ tail = p.header ++ (p.table ++ p.payload ++ tail) := by
    simp [Page.encode]
  have hval := ofNat_val p.table.length h255
  unfold readPage
  rw [hsrc]
  have hlen : ¬ (p.header ++ (p.table ++ p.payload ++ tail)).length < HeaderSize := by
    simp only [List.length_append, hh, HeaderSize]; omega
  have ht4 : (p.header ++ (p.table ++ p.payload ++ tail)).take 4 = oggs := by
    rw [List.take_append_of_le_length (by omega)]
    exact p.header_take4
  have hn : ¬ (Fin.ofNat p.table.length : Byte) < 1 := by
    rw [Fin.lt_def, hval]
    show ¬ p.table.length < 1
    omega
  have hdrop : (p.header ++ (p.table ++ p.payload ++ tail)).drop HeaderSize =
      p.table ++ p.payload ++ tail := List.drop_left' hh
  rw [if_neg hlen, if_neg (not_not.mpr ht4), hg, if_neg hn]
  simp only [hdrop, hval]
  have e1 : (p.table ++ p.payload ++ tail).take p.table.length = p.table := by
    rw [List.append_assoc]; exact List.take_left' rfl
  have e2 : (p.table ++ p.payload ++ tail).drop p.table.length = p.payload ++ tail := by
    rw [List.append_assoc]; exact List.drop_left' rfl
  rw [if_neg (by simp), e1, e2, if_neg (by simp [hp]), ← hp]
  rw [List.take_left' rfl, List.drop_left' rfl]

theorem emit_okWriter : ∀ (new writes : List (List Byte)),
    emit okWriter writes new = (none, writes ++ new) := by
  intro new
  induction new with
  | nil => intro writes; simp [emit]
  | cons d ds ih => intro writes; simp [emit, okWriter, ih]

theorem streamLoop_page (p : Page) (hv : p.valid) (fuel : Nat) (writes : List (List Byte))
    (tail : List Byte) :
    streamLoop okWriter (fuel + 1) writes (p.encode ++ tail) =
      streamLoop okWriter fuel (writes ++ p.writes) tail := by
  rw [streamLoop, readPage_encode p hv tail]
  simp only [emit_okWriter, Page.writes]

theorem encodePages_cons (p : Page) (pages : List Page) :
    encodePages (p :: pages) = p.encode ++ encodePages pages := by
  simp [encodePages]

theorem encodePages_append (a b : List Page) :
    encodePages (a ++ b) = encodePages a ++ encodePages b := by
  simp [encodePages]

theorem pagesWrites_cons (p : Page) (pages : List Page) :
    pagesWrites (p :: pages) = p.writes ++ pagesWrites pages := by
  simp [pagesWrites]

theorem pagesWrites_append (a b : List Page) :
    pagesWrites (a ++ b) = pagesWrites a ++ pagesWrites b := by
  simp [pagesWrites]

theorem streamLoop_pages : ∀ (pages : List Page), (∀ p ∈ pages, p.valid) →
    ∀ (fuel : Nat) (writes : List (List Byte)) (tail : List Byte),
    streamLoop okWriter (pages.length + fuel) writes (encodePages pages ++ tail) =
      streamLoop okWriter fuel (writes ++ pagesWrites pages) tail := by
  intro pages
  induction pages with
  | nil => intro _ fuel writes tail; simp [encodePages, pagesWrites]
  | cons p pages ih =>
    intro hv fuel writes tail
    have e : (p :: pages).length + fuel = (pages.length + fuel) + 1 := by
      simp only [List.length_cons]; omega
    rw [e, encodePages_cons, List.append_assoc,
      streamLoop_page p (hv p (List.mem_cons_self _ _)),
      ih (fun q hq => hv q (List.mem_cons_of_mem _ hq)), pagesWrites_cons, List.append_assoc]

theorem Page.encode_length (p : Page) (hv : p.valid) :
    p.encode.length = 27 + p.table.length + p.payload.length := by
  simp only [Page.encode, List.length_append, p.header_length hv]

theorem encodePages_length_ge : ∀ (pages : List Page), (∀ p ∈ pages, p.valid) →
    pages.length ≤ (encodePages pages).length := by
  intro pages
  induction pages with
  | nil => intro _; simp
  | cons p pages ih =>
    intro hv
    have := ih (fun q hq => hv q (List.mem_cons_of_mem _ hq))
    have := p.encode_length (hv p (List.mem_cons_self _ _))
    rw [encodePages_cons, List.length_append, List.length_cons]
    omega

theorem decodeStream_pages (pages : List Page) (hv : ∀ p ∈ pages, p.valid) (tail : List Byte) :
    ∃ k, decodeStream okWriter (encodePages pages ++ tail) =
      finish (streamLoop okWriter (k + 1) (pagesWrites pages) tail) := by
  have hl := encodePages_length_ge pages hv
  refine ⟨(encodePages pages ++ tail).length - pages.length, ?_⟩
  have e : (encodePages pages ++ tail).length + 1 =
      pages.length + ((encodePages pages ++ tail).length - pages.length + 1) := by
    rw [List.length_append]; omega
  unfold decodeStream
  rw [e, streamLoop_pages pages hv]
  rfl

theorem splitWrites_flatten : ∀ (t : List Byte) (acc : Nat) (p : List Byte),
    (splitWrites t acc p).flatten = p.take (acc + tableSum t) := by
  intro t
  induction t with
  | nil =>
    intro acc p
    by_cases h : acc = 0
    · simp [splitWrites, h, tableSum_nil]
    · simp [splitWrites, h, tableSum_nil]
  | cons s t ih =>
    intro acc p
    rw [splitWrites, tableSum_cons]
    by_cases hs : s < 0xFF
    · rw [if_pos hs, List.flatten_cons, ih, Nat.zero_add, ← Nat.add_assoc]
      exact (List.take_add p (acc + s.val) (tableSum t)).symm
    · rw [if_neg hs, ih, Nat.add_assoc]

theorem Page.writes_flatten (p : Page) (hv : p.valid) : p.writes.flatten = p.payload := by
  obtain ⟨-, -, -, hp⟩ := hv
  rw [Page.writes, splitWrites_flatten, Nat.zero_add, ← hp, List.take_length]

theorem pagesWrites_flatten : ∀ (pages : List Page), (∀ p ∈ pages, p.valid) →
    (pagesWrites pages).flatten = (pages.map Page.payload).flatten := by
  intro pages
  induction pages with
  | nil => intro _; rfl
  | cons p pages ih =>
    intro hv
    rw [pagesWrites_cons, List.flatten_append, p.writes_flatten (hv p (List.mem_cons_self _ _)),
      ih (fun q hq => hv q (List.mem_cons_of_mem _ hq))]
    simp

theorem endsPacket_tail (s x : Byte) (t : List Byte) (h : endsPacket (s :: x :: t)) :
    endsPacket (x :: t) := by
  intro y hy
  apply h y
  rw [List.getLast?_cons_cons]
  exact hy

theorem splitWrites_append (t2 p2 : List Byte) : ∀ (t1 : List Byte) (acc : Nat) (p1 : List Byte),
    (t1 = [] → acc = 0) → endsPacket t1 → p1.length = acc + tableSum t1 →
    splitWrites (t1 ++ t2) acc (p1 ++ p2) = splitWrites t1 acc p1 ++ splitWrites t2 0 p2 := by
  intro t1
  induction t1 with
  | nil =>
    intro acc p1 h0 _ hl
    have ha := h0 rfl
    subst ha
    have : p1 = [] := List.length_eq_zero.mp (by simpa [tableSum_nil] using hl)
    subst this
    simp [splitWrites]
  | cons s t ih =>
    intro acc p1 _ he hl
    rw [tableSum_cons] at hl
    rw [List.cons_append, splitWrites, splitWrites]
    by_cases hs : s < 0xFF
    · rw [if_pos hs, if_pos hs]
      have e1 : (p1 ++ p2).take (acc + s.val) = p1.take (acc + s.val) :=
        List.take_append_of_le_length (by omega)
      have e2 : (p1 ++ p2).drop (acc + s.val) = p1.drop (acc + s.val) ++ p2 :=
        List.drop_append_of_le_length (by omega)
      rw [e1, e2, List.cons_append]
      congr 1
      apply ih
      · intro _; rfl
      · cases t with
        | nil => intro y hy; simp at hy
        | cons x t => exact endsPacket_tail s x t he
      · rw [List.length_drop]; omega
    · rw [if_neg hs, if_neg hs]
      apply ih
      · intro ht
        subst ht
        exact absurd (he s rfl) hs
      · cases t with
        | nil => intro y hy; simp at hy
        | cons x t => exact endsPacket_tail s x t he
      · omega

theorem splitWrites_cons_of_lt (s : Byte) (t : List Byte) (acc : Nat) (p : List Byte)
    (h : s < 0xFF) : splitWrites (s :: t) acc p =
      p.take (acc + s.val) :: splitWrites t 0 (p.drop (acc + s.val)) := by
  rw [splitWrites, if_pos h]

theorem splitWrites_cons_of_not_lt (s : Byte) (t : List Byte) (acc : Nat) (p : List Byte)
    (h : ¬ s < 0xFF) : splitWrites (s :: t) acc p = splitWrites t (acc + s.val) p := by
  rw [splitWrites, if_neg h]

theorem splitWrites_run : ∀ (n acc : Nat) (r : Byte) (p : List Byte), r < 0xFF →
    splitWrites (List.replicate n 255 ++ [r]) acc p = [p.take (acc + 255 * n + r.val)] := by
  intro n
  induction n with
  | zero => intro acc r p hr; simp [splitWrites, hr]
  | succ n ih =>
    intro acc r p hr
    have h255 : ¬ (255 : Byte) < 0xFF := by decide
    rw [List.replicate_succ, List.cons_append, splitWrites_cons_of_not_lt _ _ _ _ h255,
      ih _ _ _ hr]
    have e : acc + (255 : Byte).val + 255 * n + r.val = acc + 255 * (n + 1) + r.val := by
      have : (255 : Byte).val = 255 := rfl
      omega
    rw [e]

theorem lacing_eq (pk : List Byte) :
    lacing pk = List.replicate (pk.length / 255) 255 ++ [Fin.ofNat (pk.length % 255)] := rfl

theorem splitWrites_lacing (pk t p : List Byte) :
    splitWrites (lacing pk ++ t) 0 (pk ++ p) = pk :: splitWrites t 0 p := by
  have hm : pk.length % 255 < 255 := Nat.mod_lt _ (by omega)
  have hv : (Fin.ofNat (pk.length % 255) : Byte).val = pk.length % 255 := ofNat_val _ (by omega)
  have hr : (Fin.ofNat (pk.length % 255) : Byte) < 0xFF := by
    rw [Fin.lt_def, hv]; exact hm
  have hsum : tableSum (lacing pk) = pk.length := by
    rw [lacing_eq, tableSum_append, tableSum_cons, tableSum_nil, hv]
    have : tableSum (List.replicate (pk.length / 255) 255) = 255 * (pk.length / 255) := by
      generalize pk.length / 255 = n
      induction n with
      | zero => rfl
      | succ n ih =>
        rw [List.replicate_succ, tableSum_cons, ih]
        have : (255 : Byte).val = 255 := rfl
        omega
    rw [this]
    have := Nat.div_add_mod pk.length 255
    omega
  have he : endsPacket (lacing pk) := by
    intro s hs
    rw [lacing_eq, List.getLast?_append] at hs
    simp at hs
    rw [← hs]; exact hr
  rw [splitWrites_append t p (lacing pk) 0 pk (by intro h; simp [lacing_eq] at h) he
    (by rw [hsum]; omega)]
  rw [lacing_eq, splitWrites_run _ _ _ _ hr, hv]
  have e : 0 + 255 * (pk.length / 255) + pk.length % 255 = pk.length := by
    have := Nat.div_add_mod pk.length 255
    omega
  rw [e, List.take_length]
  rfl

theorem streamLoop_nil (w : Writer) (k : Nat) (writes : List (List Byte)) :
    streamLoop w (k + 1) writes [] = Run.done ⟨some Err.EOF, writes, []⟩ := by
  rw [streamLoop]; rfl

theorem Decode_pages_tail (pages : List Page) (hv : ∀ p ∈ pages, p.valid) (tail : List Byte) :
    ∃ k, Decode okWriter (encodePages pages ++ tail) =
      finish (streamLoop okWriter (k + 1) (pagesWrites pages) tail) := by
  obtain ⟨k, hk⟩ := decodeStream_pages pages hv tail
  exact ⟨k, by rw [Decode_eq_decodeStream, hk]⟩

theorem Decode_pages (pages : List Page) (hv : ∀ p ∈ pages, p.valid) :
    Decode okWriter (encodePages pages) = Run.done ⟨none, pagesWrites pages, []⟩ := by
  obtain ⟨k, hk⟩ := Decode_pages_tail pages hv []
  rw [List.append_nil] at hk
  rw [hk, streamLoop_nil]
  rfl

theorem pagesWrites_eq_splitWrites : ∀ (pages : List Page), (∀ p ∈ pages, p.valid) →
    (∀ p ∈ pages, endsPacket p.table) →
    pagesWrites pages =
      splitWrites (pages.map Page.table).flatten 0 (pages.map Page.payload).flatten := by
  intro pages
  induction pages with
  | nil => intro _ _; rfl
  | cons p pages ih =>
    intro hv hc
    obtain ⟨-, -, -, hp⟩ := hv p (List.mem_cons_self _ _)
    rw [pagesWrites_cons, ih (fun q hq => hv q (List.mem_cons_of_mem _ hq))
      (fun q hq => hc q (List.mem_cons_of_mem _ hq))]
    simp only [List.map_cons, List.flatten_cons]
    rw [splitWrites_append _ _ p.table 0 p.payload (fun _ => rfl)
      (hc p (List.mem_cons_self _ _)) (by omega)]
    rfl

theorem splitWrites_packets : ∀ (packets : List (List Byte)),
    splitWrites (packets.map lacing).flatten 0 packets.flatten = packets := by
  intro packets
  induction packets with
  | nil => rfl
  | cons pk packets ih =>
    simp only [List.map_cons, List.flatten_cons]
    rw [splitWrites_lacing, ih]

theorem tableSum_replicate (n : Nat) : tableSum (List.replicate n 255) = 255 * n := by
  induction n with
  | zero => rfl
  | succ n ih =>
    rw [List.replicate_succ, tableSum_cons, ih]
    have : (255 : Byte).val = 255 := rfl
    omega

theorem splitWrites_all255 : ∀ (t : List Byte) (acc : Nat) (p : List Byte),
    (∀ s ∈ t, s = 255) → (t = [] → acc ≠ 0) →
    splitWrites t acc p = [p.take (acc + tableSum t)] := by
  intro t
  induction t with
  | nil =>
    intro acc p _ h0
    simp [splitWrites, h0 rfl, tableSum_nil]
  | cons s t ih =>
    intro acc p hs _
    have h255 : s = 255 := hs s (List.mem_cons_self _ _)
    have hn : ¬ s < 0xFF := by rw [h255]; decide
    have hv : s.val = 255 := by rw [h255]; rfl
    rw [splitWrites_cons_of_not_lt _ _ _ _ hn,
      ih _ _ (fun x hx => hs x (List.mem_cons_of_mem _ hx)) (fun _ => by omega),
      tableSum_cons, Nat.add_assoc]

theorem Page.writes_all255 (p : Page) (hv : p.valid) (h : ∀ s ∈ p.table, s = 255) :
    p.writes = [p.payload] := by
  obtain ⟨-, h1, -, hp⟩ := hv
  rw [Page.writes, splitWrites_all255 _ _ _ h
    (fun h0 => by rw [h0] at h1; simp at h1), Nat.zero_add, ← hp, List.take_length]

theorem pagesWrites_all255 : ∀ (pages : List Page), (∀ p ∈ pages, p.valid) →
    (∀ p ∈ pages, ∀ s ∈ p.table, s = 255) → pagesWrites pages = pages.map Page.payload := by
  intro pages
  induction pages with
  | nil => intro _ _; rfl
  | cons p pages ih =>
    intro hv h
    rw [pagesWrites_cons, p.writes_all255 (hv p (List.mem_cons_self _ _))
      (h p (List.mem_cons_self _ _)), ih (fun q hq => hv q (List.mem_cons_of_mem _ hq))
      (fun q hq => h q (List.mem_cons_of_mem _ hq))]
    rfl

theorem endsPacket_append_singleton (t : List Byte) (r : Byte) (hr : r < 0xFF) :
    endsPacket (t ++ [r]) := by
  intro s hs
  rw [List.getLast?_append] at hs
  simp at hs
  rw [← hs]; exact hr

theorem splitWrites_run_then (n : Nat) (r : Byte) (hr : r < 0xFF) (post c q : List Byte)
    (hc : c.length = 255 * n + r.val) :
    splitWrites (List.replicate n 255 ++ r :: post) 0 (c ++ q) = c :: splitWrites post 0 q := by
  have e : List.replicate n 255 ++ r :: post = (List.replicate n 255 ++ [r]) ++ post := by simp
  rw [e, splitWrites_append post q _ 0 c (by intro h; simp at h)
    (endsPacket_append_singleton _ r hr)
    (by rw [tableSum_append, tableSum_replicate, tableSum_cons, tableSum_nil]; omega),
    splitWrites_run _ _ _ _ hr, Nat.zero_add, ← hc, List.take_length]
  rfl

theorem readPage_fail_ne (src rest : List Byte) (err : Err)
    (h : readPage src = PageRead.fail err rest) : err ≠ Err.bufferTooSmall := by
  have hs : ∀ l : List Byte, shortRead l ≠ Err.bufferTooSmall := by
    intro l; unfold shortRead; split <;> simp
  simp only [readPage] at h
  split_ifs at h <;> cases h <;> first | exact hs _ | simp

theorem emit_err (w : Writer) : ∀ (new writes ws : List (List Byte)) (err : Err),
    emit w writes new = (some err, ws) → ∃ e, err = Err.writeFailed e := by
  intro new
  induction new with
  | nil => intro writes ws err h; simp [emit] at h
  | cons d ds ih =>
    intro writes ws err h
    rw [emit] at h
    cases hw : w writes d with
    | some e =>
      rw [hw] at h
      simp only [Prod.mk.injEq, Option.some.injEq] at h
      exact ⟨e, h.1.symm⟩
    | none =>
      rw [hw] at h
      exact ih _ _ _ h

theorem streamLoop_ne_bufferTooSmall (w : Writer) : ∀ (fuel : Nat) (writes : List (List Byte))
    (src : List Byte) (o : Outcome), streamLoop w fuel writes src = Run.done o →
    o.err ≠ some Err.bufferTooSmall := by
  intro fuel
  induction fuel with
  | zero => intro writes src o h; simp [streamLoop] at h
  | succ fuel ih =>
    intro writes src o h
    rw [streamLoop] at h
    cases hr : readPage src with
    | fail err rest =>
      rw [hr] at h
      simp only [Run.done.injEq] at h
      rw [← h]
      simp only [ne_eq, Option.some.injEq]
      exact readPage_fail_ne src rest err hr
    | page table payload rest =>
      rw [hr] at h
      simp only at h
      rcases he : emit w writes (splitWrites table 0 payload) with ⟨_ | err, ws⟩
      · rw [he] at h
        exact ih _ _ _ h
      · rw [he] at h
        simp only [Run.done.injEq] at h
        obtain ⟨e, hee⟩ := emit_err w _ _ _ _ he
        rw [← h, hee]
        simp

theorem finish_ne_bufferTooSmall (r : Run Outcome) (o : Outcome)
    (hr : ∀ o2, r = Run.done o2 → o2.err ≠ some Err.bufferTooSmall)
    (h : finish r = Run.done o) : o.err ≠ some Err.bufferTooSmall := by
  cases r with
  | done o2 =>
    have h2 := hr o2 rfl
    simp only [finish] at h
    split_ifs at h with he
    · cases h; simp
    · cases h; exact h2
  | panic => simp [finish] at h
  | timeout => simp [finish] at h

theorem decodeStream_eq_finish (w : Writer) (src : List Byte) :
    decodeStream w src = finish (streamLoop w (src.length + 1) [] src) := rfl

theorem streamLoop_short (w : Writer) (k : Nat) (writes : List (List Byte)) (tail : List Byte)
    (h : tail.length ≤ 26) :
    streamLoop w (k + 1) writes tail = Run.done ⟨some (shortRead tail), writes, []⟩ := by
  rw [streamLoop, readPage, if_pos (by simp only [HeaderSize]; omega)]

theorem streamLoop_badCapture (w : Writer) (k : Nat) (writes : List (List Byte))
    (bad : List Byte) (h27 : 27 ≤ bad.length) (hc : bad.take 4 ≠ oggs) :
    streamLoop w (k + 1) writes bad =
      Run.done ⟨some (Err.invalidOggs (bad.take 27)), writes, bad.drop 27⟩ := by
  rw [streamLoop, readPage, if_neg (by simp only [HeaderSize]; omega), if_pos hc]
  rfl

theorem streamLoop_zeroSegs (w : Writer) (k : Nat) (writes : List (List Byte))
    (fields rest : List Byte) (hf : fields.length = 22) :
    streamLoop w (k + 1) writes (oggs ++ fields ++ [0] ++ rest) =
      Run.done ⟨some Err.ErrBadSegs, writes, rest⟩ := by
  have hl : (oggs ++ fields ++ [0]).length = 27 := by simp [oggs_length, hf]
  have h4 : (oggs ++ fields ++ [0] ++ rest).take 4 = oggs := by
    rw [List.append_assoc, List.append_assoc]
    exact List.take_left' oggs_length
  have hg : (oggs ++ fields ++ [0] ++ rest).getD 26 0 = 0 := by
    have hl2 : (oggs ++ fields).length = 26 := by simp [oggs_length, hf]
    rw [List.getD_eq_getElem?_getD, List.append_assoc, List.append_assoc,
      ← List.append_assoc oggs, List.getElem?_append_right (by omega)]
    simp [hl2]
  have hd : (oggs ++ fields ++ [0] ++ rest).drop HeaderSize = rest := List.drop_left' hl
  rw [streamLoop, readPage, if_neg (by simp only [List.length_append, hl, HeaderSize]; omega),
    if_neg (not_not.mpr h4), hg, if_pos (by decide), hd]

theorem accepted_nil (w : Writer) : accepted w [] := by
  intro i h; simp at h

theorem getElem_mid (ws : List (List Byte)) (x : List Byte) (rest : List (List Byte))
    (h : ws.length < (ws ++ x :: rest).length) : (ws ++ x :: rest)[ws.length] = x := by
  induction ws with
  | nil => rfl
  | cons y ws ih => simpa using ih (by simp)

theorem accepted_snoc (w : Writer) (ws : List (List Byte)) (d : List Byte)
    (ha : accepted w ws) (hd : w ws d = none) : accepted w (ws ++ [d]) := by
  intro i h
  by_cases hi : i < ws.length
  · rw [List.take_append_of_le_length (by omega), List.getElem_append_left hi]
    exact ha i hi
  · have e : i = ws.length := by
      simp only [List.length_append, List.length_singleton] at h
      omega
    subst e
    have hg : (ws ++ [d])[ws.length] = d := getElem_mid ws d [] h
    rw [List.take_left' rfl, hg]
    exact hd

theorem accepted_left (w : Writer) (ws rest : List (List Byte))
    (ha : accepted w (ws ++ rest)) : accepted w ws := by
  intro i h
  have h2 : i < (ws ++ rest).length := by rw [List.length_append]; omega
  have := ha i h2
  rw [List.take_append_of_le_length (by omega), List.getElem_append_left h] at this
  exact this

theorem accepted_mid (w : Writer) (ws : List (List Byte)) (x : List Byte)
    (rest : List (List Byte)) (ha : accepted w (ws ++ x :: rest)) : w ws x = none := by
  have h2 : ws.length < (ws ++ x :: rest).length := by simp
  have := ha ws.length h2
  rw [List.take_left' rfl, getElem_mid] at this
  exact this

theorem emit_of_accepted (w : Writer) : ∀ (new ws : List (List Byte)),
    accepted w (ws ++ new) → emit w ws new = (none, ws ++ new) := by
  intro new
  induction new with
  | nil => intro ws _; simp [emit]
  | cons x new ih =>
    intro ws ha
    rw [emit, accepted_mid w ws x new ha]
    simp only
    have e : ws ++ x :: new = (ws ++ [x]) ++ new := by simp
    rw [e] at ha ⊢
    exact ih _ ha

theorem emit_of_failed (w : Writer) (d : List Byte) (b : List (List Byte)) (e : Err) :
    ∀ (a ws : List (List Byte)), accepted w (ws ++ a) → w (ws ++ a) d = some e →
    emit w ws (a ++ d :: b) = (some (Err.writeFailed e), ws ++ a ++ [d]) := by
  intro a
  induction a with
  | nil =>
    intro ws _ hd
    rw [List.append_nil] at hd
    rw [List.nil_append, emit, hd, List.append_nil]
  | cons x a ih =>
    intro ws ha hd
    rw [List.cons_append, emit, accepted_mid w ws x a ha]
    simp only
    have e1 : ws ++ x :: a = (ws ++ [x]) ++ a := by simp
    rw [e1] at ha hd ⊢
    exact ih _ ha hd

theorem emit_cases (w : Writer) : ∀ (new ws : List (List Byte)), accepted w ws →
    (emit w ws new = (none, ws ++ new) ∧ accepted w (ws ++ new)) ∨
    (∃ a d b e, new = a ++ d :: b ∧ accepted w (ws ++ a) ∧ w (ws ++ a) d = some e ∧
      emit w ws new = (some (Err.writeFailed e), ws ++ a ++ [d])) := by
  intro new
  induction new with
  | nil =>
    intro ws ha
    left
    simp [emit, ha]
  | cons x new ih =>
    intro ws ha
    cases hx : w ws x with
    | some e =>
      right
      refine ⟨[], x, new, e, rfl, by simpa using ha, by simpa using hx, ?_⟩
      rw [emit, hx]
      simp
    | none =>
      have ha2 := accepted_snoc w ws x ha hx
      have e1 : ws ++ x :: new = (ws ++ [x]) ++ new := by simp
      rcases ih (ws ++ [x]) ha2 with ⟨h1, h2⟩ | ⟨a, d, b, e, hn, h1, h2, h3⟩
      · left
        rw [emit, hx, e1]
        exact ⟨h1, h2⟩
      · right
        refine ⟨x :: a, d, b, e, by rw [hn]; rfl, ?_, ?_, ?_⟩
        · rw [show ws ++ x :: a = (ws ++ [x]) ++ a by simp]; exact h1
        · rw [show ws ++ x :: a = (ws ++ [x]) ++ a by simp]; exact h2
        · rw [emit, hx, show ws ++ x :: a = (ws ++ [x]) ++ a by simp]
          exact h3

theorem streamLoop_page_gen (w : Writer) (p : Page) (hv : p.valid) (fuel : Nat)
    (writes : List (List Byte)) (tail : List Byte) :
    streamLoop w (fuel + 1) writes (p.encode ++ tail) =
      match emit w writes p.writes with
      | (some err, ws) => Run.done ⟨some err, ws, tail⟩
      | (none, ws) => streamLoop w fuel ws tail := by
  rw [streamLoop, readPage_encode p hv tail]
  rfl

theorem streamLoop_pages_gen (w : Writer) : ∀ (pages : List Page), (∀ p ∈ pages, p.valid) →
    ∀ (fuel : Nat) (writes : List (List Byte)) (tail : List Byte),
    accepted w (writes ++ pagesWrites pages) →
    streamLoop w (pages.length + fuel) writes (encodePages pages ++ tail) =
      streamLoop w fuel (writes ++ pagesWrites pages) tail := by
  intro pages
  induction pages with
  | nil => intro _ fuel writes tail _; simp [encodePages, pagesWrites]
  | cons p pages ih =>
    intro hv fuel writes tail ha
    have e : (p :: pages).length + fuel = (pages.length + fuel) + 1 := by
      simp only [List.length_cons]; omega
    rw [pagesWrites_cons, ← List.append_assoc] at ha
    rw [e, encodePages_cons, List.append_assoc,
      streamLoop_page_gen w p (hv p (List.mem_cons_self _ _)),
      emit_of_accepted w _ _ (accepted_left w _ _ ha)]
    simp only
    rw [ih (fun q hq => hv q (List.mem_cons_of_mem _ hq)) _ _ _ ha, pagesWrites_cons,
      List.append_assoc]

theorem readPage_page (src t p rest : List Byte)
    (h : readPage src = PageRead.page t p rest) :
    27 ≤ src.length ∧ src.take 4 = oggs ∧ 1 ≤ t.length ∧ t.length = (src.getD 26 0).val ∧
    p.length = tableSum t ∧ src = src.take 27 ++ t ++ p ++ rest := by
  simp only [readPage, HeaderSize] at h
  split_ifs at h with h1 h2 h3 h4 h5
  simp only [PageRead.page.injEq] at h
  obtain ⟨ht, hp, hr⟩ := h
  have hn1 : ¬ (src.getD 26 0).val < 1 := fun hlt => h3 (Fin.lt_def.mpr hlt)
  have hl1 : (src.drop 27).length = src.length - 27 := List.length_drop _ _
  have htl : t.length = (src.getD 26 0).val := by
    rw [← ht, List.length_take]; omega
  have hpl : p.length = tableSum t := by
    rw [← hp, List.length_take, ht]
    rw [ht] at h5
    omega
  refine ⟨by omega, not_not.mp h2, by omega, htl, hpl, ?_⟩
  rw [← hr, ← hp, ← ht, List.append_assoc, List.append_assoc, List.take_append_drop,
    List.take_append_drop, List.take_append_drop]

theorem readPage_page_length (src t p rest : List Byte)
    (h : readPage src = PageRead.page t p rest) :
    src.length = 27 + t.length + p.length + rest.length := by
  obtain ⟨h27, -, -, -, -, hs⟩ := readPage_page src t p rest h
  have := congrArg List.length hs
  simp only [List.length_append, List.length_take] at this
  omega

theorem streamLoop_total (w : Writer) : ∀ (fuel : Nat) (writes : List (List Byte))
    (src : List Byte), src.length / 28 < fuel →
    ∃ o, ∀ fuel2, src.length / 28 < fuel2 → streamLoop w fuel2 writes src = Run.done o := by
  intro fuel
  induction fuel with
  | zero => intro writes src h; omega
  | succ fuel ih =>
    intro writes src hf
    cases hr : readPage src with
    | fail err rest =>
      refine ⟨⟨some err, writes, rest⟩, ?_⟩
      intro fuel2 h2
      obtain ⟨k, rfl⟩ : ∃ k, fuel2 = k + 1 := ⟨fuel2 - 1, by omega⟩
      rw [streamLoop, hr]
    | page t p rest =>
      have hl := readPage_page_length src t p rest hr
      obtain ⟨-, -, ht1, -, -, -⟩ := readPage_page src t p rest hr
      have hdiv : rest.length / 28 + 1 ≤ src.length / 28 := by
        have h28 : rest.length + 28 ≤ src.length := by omega
        have := Nat.div_le_div_right (c := 28) h28
        rw [Nat.add_div_right _ (by omega)] at this
        exact this
      rcases he : emit w writes (splitWrites t 0 p) with ⟨_ | err, ws⟩
      · obtain ⟨o, ho⟩ := ih ws rest (by omega)
        refine ⟨o, ?_⟩
        intro fuel2 h2
        obtain ⟨k, rfl⟩ : ∃ k, fuel2 = k + 1 := ⟨fuel2 - 1, by omega⟩
        rw [streamLoop, hr]
        simp only [he]
        exact ho k (by omega)
      · refine ⟨⟨some err, ws, rest⟩, ?_⟩
        intro fuel2 h2
        obtain ⟨k, rfl⟩ : ∃ k, fuel2 = k + 1 := ⟨fuel2 - 1, by omega⟩
        rw [streamLoop, hr]
        simp only [he]

theorem div28_lt (src : List Byte) : src.length / 28 < src.length + 1 := by
  have := Nat.div_le_self src.length 28
  omega

theorem decodeStream_total (w : Writer) (src : List Byte) :
    ∃ o, (∀ fuel, src.length / 28 < fuel → streamLoop w fuel [] src = Run.done o) ∧
      decodeStream w src = finish (Run.done o) := by
  obtain ⟨o, ho⟩ := streamLoop_total w (src.length + 1) [] src (div28_lt src)
  exact ⟨o, ho, by rw [decodeStream_eq_finish, ho _ (div28_lt src)]⟩

theorem finish_done (o : Outcome) :
    finish (Run.done o) =
      Run.done ⟨if o.err = some Err.EOF then none else o.err, o.writes, o.rest⟩ := by
  by_cases h : o.err = some Err.EOF
  · simp only [finish, h, if_true]
  · simp only [finish, h, if_false]

theorem streamLoop_trace (w : Writer) : ∀ (fuel : Nat) (writes : List (List Byte))
    (src : List Byte) (o : Outcome), accepted w writes →
    streamLoop w fuel writes src = Run.done o →
    accepted w o.writes ∨
    ∃ ws d e, o.writes = ws ++ [d] ∧ accepted w ws ∧ w ws d = some e ∧
      o.err = some (Err.writeFailed e) := by
  intro fuel
  induction fuel with
  | zero => intro writes src o _ h; simp [streamLoop] at h
  | succ fuel ih =>
    intro writes src o ha h
    rw [streamLoop] at h
    cases hr : readPage src with
    | fail err rest =>
      rw [hr] at h
      simp only [Run.done.injEq] at h
      left
      rw [← h]
      exact ha
    | page t p rest =>
      rw [hr] at h
      simp only at h
      rcases emit_cases w (splitWrites t 0 p) writes ha with
        ⟨h1, h2⟩ | ⟨a, d, b, e, -, h1, h2, h3⟩
      · rw [h1] at h
        exact ih _ _ _ h2 h
      · rw [h3] at h
        simp only [Run.done.injEq] at h
        right
        exact ⟨writes ++ a, d, e, by rw [← h], h1, h2, by rw [← h]⟩

theorem header_facts (fields : List Byte) (n : Byte) (r : List Byte)
    (hf : fields.length = 22) :
    ¬ (oggs ++ fields ++ [n] ++ r).length < HeaderSize ∧
    (oggs ++ fields ++ [n] ++ r).take 4 = oggs ∧
    (oggs ++ fields ++ [n] ++ r).getD 26 0 = n ∧
    (oggs ++ fields ++ [n] ++ r).drop HeaderSize = r := by
  have hl : (oggs ++ fields ++ [n]).length = 27 := by simp [oggs_length, hf]
  have hl2 : (oggs ++ fields).length = 26 := by simp [oggs_length, hf]
  refine ⟨?_, ?_, ?_, List.drop_left' hl⟩
  · simp only [List.length_append, hl, HeaderSize]; omega
  · rw [List.append_assoc, List.append_assoc]
    exact List.take_left' oggs_length
  · rw [List.getD_eq_getElem?_getD, List.append_assoc, List.append_assoc,
      ← List.append_assoc oggs, List.getElem?_append_right (by omega)]
    simp [hl2]

theorem readPage_failingTail (tail : List Byte) (h : failingTail tail) :
    ∃ err rest, readPage tail = PageRead.fail err rest := by
  rcases h with h | ⟨h1, h2⟩ | ⟨fields, rest, hf, rfl⟩ | ⟨fields, n, part, hf, hn, hp, rfl⟩ |
    ⟨fields, table, part, hf, h1, h255, hp, rfl⟩
  · exact ⟨shortRead tail, [], by rw [readPage, if_pos (by simp only [HeaderSize]; omega)]⟩
  · exact ⟨Err.invalidOggs (tail.take HeaderSize), tail.drop HeaderSize, by
      rw [readPage, if_neg (by simp only [HeaderSize]; omega), if_pos h2]⟩
  · obtain ⟨e1, e2, e3, e4⟩ := header_facts fields 0 rest hf
    exact ⟨Err.ErrBadSegs, rest, by
      rw [readPage, if_neg e1, if_neg (not_not.mpr e2), e3, if_pos (by decide), e4]⟩
  · obtain ⟨e1, e2, e3, e4⟩ := header_facts fields n part hf
    have hn1 : ¬ n < 1 := by
      rw [Fin.lt_def]
      show ¬ n.val < 1
      omega
    exact ⟨shortRead part, [], by
      rw [readPage, if_neg e1, if_neg (not_not.mpr e2), e3, if_neg hn1]
      simp only [e4]
      rw [if_pos hp]⟩
  · have hsrc : oggs ++ fields ++ [Fin.ofNat table.length] ++ table ++ part =
        oggs ++ fields ++ [Fin.ofNat table.length] ++ (table ++ part) := by simp
    obtain ⟨e1, e2, e3, e4⟩ := header_facts fields (Fin.ofNat table.length) (table ++ part) hf
    have hval := ofNat_val table.length h255
    have hn1 : ¬ (Fin.ofNat table.length : Byte) < 1 := by
      rw [Fin.lt_def, hval]
      show ¬ table.length < 1
      omega
    refine ⟨shortRead part, [], ?_⟩
    rw [hsrc, readPage, if_neg e1, if_neg (not_not.mpr e2), e3, if_neg hn1]
    simp only [e4, hval]
    rw [if_neg (by simp), List.take_left' rfl, List.drop_left' rfl, if_pos hp]

theorem emit_append (w : Writer) : ∀ (a b ws : List (List Byte)),
    emit w ws (a ++ b) =
      match emit w ws a with
      | (some err, ws2) => (some err, ws2)
      | (none, ws2) => emit w ws2 b := by
  intro a
  induction a with
  | nil => intro b ws; simp [emit]
  | cons x a ih =>
    intro b ws
    rw [List.cons_append, emit, emit]
    cases w ws x with
    | some e => rfl
    | none => exact ih b _

theorem streamLoop_pages_writes (w : Writer) (tail : List Byte) (err : Err) (rest : List Byte)
    (ht : readPage tail = PageRead.fail err rest) :
    ∀ (pages : List Page), (∀ p ∈ pages, p.valid) → ∀ (k : Nat) (ws : List (List Byte)),
    ∃ o, streamLoop w (pages.length + (k + 1)) ws (encodePages pages ++ tail) = Run.done o ∧
      o.writes = (emit w ws (pagesWrites pages)).2 := by
  intro pages
  induction pages with
  | nil =>
    intro _ k ws
    refine ⟨⟨some err, ws, rest⟩, ?_, rfl⟩
    simp only [List.length_nil, Nat.zero_add, encodePages, List.map_nil, List.flatten_nil,
      List.nil_append]
    rw [streamLoop, ht]
  | cons p pages ih =>
    intro hv k ws
    have e : (p :: pages).length + (k + 1) = (pages.length + (k + 1)) + 1 := by
      simp only [List.length_cons]; omega
    rw [e, encodePages_cons, List.append_assoc,
      streamLoop_page_gen w p (hv p (List.mem_cons_self _ _)), pagesWrites_cons, emit_append]
    rcases emit w ws p.writes with ⟨_ | e2, ws2⟩
    · exact ih (fun q hq => hv q (List.mem_cons_of_mem _ hq)) k ws2
    · exact ⟨_, rfl, rfl⟩

theorem readPage_nil : readPage [] = PageRead.fail Err.EOF [] := rfl

theorem Decode_pages_writes (w : Writer) (pages : List Page) (hv : ∀ p ∈ pages, p.valid)
    (tail : List Byte) (err : Err) (rest : List Byte)
    (ht : readPage tail = PageRead.fail err rest) :
    ∃ o, Decode w (encodePages pages ++ tail) = Run.done o ∧
      o.writes = (emit w [] (pagesWrites pages)).2 := by
  have hl := encodePages_length_ge pages hv
  have e1 : (encodePages pages ++ tail).length + 1 =
      pages.length + (((encodePages pages ++ tail).length - pages.length) + 1) := by
    simp only [List.length_append]; omega
  obtain ⟨o, ho, hw⟩ := streamLoop_pages_writes w tail err rest ht pages hv
    ((encodePages pages ++ tail).length - pages.length) []
  refine ⟨⟨if o.err = some Err.EOF then none else o.err, o.writes, o.rest⟩, ?_, hw⟩
  rw [Decode_eq_decodeStream, decodeStream_eq_finish, e1, ho, finish_done]

theorem shortRead_congr (s t : List Byte) (h : s.length = t.length) :
    shortRead s = shortRead t := by
  unfold shortRead; rw [h]

theorem readPage_congr (s t : List Byte) (hlen : s.length = t.length)
    (h4 : s.take 4 = t.take 4) (h26 : s.getD 26 0 = t.getD 26 0)
    (hd : s.drop HeaderSize = t.drop HeaderSize) :
    (s.length < HeaderSize ∨ s.take 4 = oggs → readPage s = readPage t) ∧
    (¬ s.length < HeaderSize → s.take 4 ≠ oggs →
      readPage s = PageRead.fail (Err.invalidOggs (s.take HeaderSize)) (s.drop HeaderSize) ∧
      readPage t = PageRead.fail (Err.invalidOggs (t.take HeaderSize)) (s.drop HeaderSize)) := by
  have hlt : (t.length < HeaderSize) = (s.length < HeaderSize) := by rw [hlen]
  constructor
  · intro h
    by_cases hs : s.length < HeaderSize
    · have ht : t.length < HeaderSize := by rw [hlt]; exact hs
      rw [readPage, if_pos hs, readPage, if_pos ht, shortRead_congr s t hlen]
    · have ht : ¬ t.length < HeaderSize := by rw [hlt]; exact hs
      have hc : ¬ s.take 4 ≠ oggs := by
        rcases h with h | h
        · exact absurd h hs
        · exact not_not.mpr h
      have hct : ¬ t.take 4 ≠ oggs := by rw [← h4]; exact hc
      rw [readPage, if_neg hs, if_neg hc, readPage, if_neg ht, if_neg hct, ← h26, ← hd]
  · intro hs hc
    have ht : ¬ t.length < HeaderSize := by rw [hlt]; exact hs
    have hct : t.take 4 ≠ oggs := by rw [← h4]; exact hc
    constructor
    · rw [readPage, if_neg hs, if_pos hc]
    · rw [readPage, if_neg ht, if_pos hct, ← hd]

theorem header_views (c f g r : List Byte) (hc : c.length = 4) (hfg : f.length = g.length)
    (hf : f.length ≤ 22) (hr : f.length < 22 → r = []) :
    (c ++ f ++ r).length = (c ++ g ++ r).length ∧
    (c ++ f ++ r).take 4 = (c ++ g ++ r).take 4 ∧
    (c ++ f ++ r).getD 26 0 = (c ++ g ++ r).getD 26 0 ∧
    (c ++ f ++ r).drop HeaderSize = (c ++ g ++ r).drop HeaderSize := by
  have t4 : ∀ x : List Byte, (c ++ x ++ r).take 4 = c := by
    intro x
    rw [List.append_assoc]
    exact List.take_left' hc
  refine ⟨by simp [hfg], by rw [t4, t4], ?_, ?_⟩
  · by_cases h22 : f.length < 22
    · have hr0 := hr h22
      subst hr0
      have l1 : (c ++ f ++ []).length ≤ 26 := by simp [hc]; omega
      have l2 : (c ++ g ++ []).length ≤ 26 := by simp [hc]; omega
      rw [List.getD_eq_getElem?_getD, List.getD_eq_getElem?_getD,
        List.getElem?_eq_none l1, List.getElem?_eq_none l2]
    · have l1 : (c ++ f).length = 26 := by simp [hc]; omega
      have l2 : (c ++ g).length = 26 := by simp [hc]; omega
      rw [List.getD_eq_getElem?_getD, List.getD_eq_getElem?_getD,
        List.getElem?_append_right (by omega), List.getElem?_append_right (by omega), l1, l2]
  · by_cases h22 : f.length < 22
    · have hr0 := hr h22
      subst hr0
      rw [List.drop_eq_nil_of_le (by simp [hc, HeaderSize]; omega),
        List.drop_eq_nil_of_le (by simp [hc, HeaderSize]; omega)]
    · have l1 : (c ++ f).length = 26 := by simp [hc]; omega
      have l2 : (c ++ g).length = 26 := by simp [hc]; omega
      have d1 : ∀ x : List Byte, (c ++ x).length = 26 →
          (c ++ x ++ r).drop HeaderSize = r.drop 1 := by
        intro x hx
        have : HeaderSize = (c ++ x).length + 1 := by rw [hx]; rfl
        rw [this, ← List.drop_drop, List.drop_left' rfl]
      rw [d1 f l1, d1 g l2]

theorem sameButFields_length (s t : List Byte) (h : sameButFields s t) :
    s.length = t.length := by
  induction h with
  | same s => rfl
  | page p q s t hp hq ht hpl _ ih =>
    rw [List.length_append, List.length_append, p.encode_length hp, q.encode_length hq, ht,
      hpl, ih]
  | header f g r hfg hf hr => simp [hfg]

theorem streamLoop_pos (w : Writer) (fuel : Nat) (ws : List (List Byte)) (src : List Byte)
    (h : src.length / 28 < fuel) :
    streamLoop w fuel ws src =
      match readPage src with
      | PageRead.fail err rest => Run.done ⟨some err, ws, rest⟩
      | PageRead.page table payload rest =>
        match emit w ws (splitWrites table 0 payload) with
        | (some err, ws2) => Run.done ⟨some err, ws2, rest⟩
        | (none, ws2) => streamLoop w (fuel - 1) ws2 rest := by
  obtain ⟨k, rfl⟩ : ∃ k, fuel = k + 1 := ⟨fuel - 1, by omega⟩
  rw [streamLoop]
  rfl

theorem div28_page (p : Page) (hp : p.valid) (s : List Byte) (fuel : Nat)
    (h : (p.encode ++ s).length / 28 < fuel) : s.length / 28 < fuel - 1 := by
  have hl := p.encode_length hp
  obtain ⟨-, h1, -, -⟩ := hp
  have h28 : s.length + 28 ≤ (p.encode ++ s).length := by
    rw [List.length_append]; omega
  have := Nat.div_le_div_right (c := 28) h28
  rw [Nat.add_div_right _ (by omega)] at this
  omega

theorem streamLoop_sameButFields (w : Writer) (s t : List Byte) (h : sameButFields s t) :
    ∀ ws : List (List Byte), ∃ o1 o2,
      (∀ fuel, s.length / 28 < fuel → streamLoop w fuel ws s = Run.done o1) ∧
      (∀ fuel, t.length / 28 < fuel → streamLoop w fuel ws t = Run.done o2) ∧
      o1.err = o2.err ∧ o1.writes = o2.writes ∧ o1.rest.length = o2.rest.length := by
  induction h with
  | same s =>
    intro ws
    obtain ⟨o, ho⟩ := streamLoop_total w (s.length + 1) ws s (div28_lt s)
    exact ⟨o, o, ho, ho, rfl, rfl, rfl⟩
  | page p q s t hp hq ht hpl hst ih =>
    intro ws
    have hw : q.writes = p.writes := by rw [Page.writes, Page.writes, ht, hpl]
    have hlen := sameButFields_length s t hst
    rcases he : emit w ws p.writes with ⟨_ | err, ws2⟩
    · obtain ⟨o1, o2, h1, h2, h3⟩ := ih ws2
      refine ⟨o1, o2, ?_, ?_, h3⟩
      · intro fuel hf
        obtain ⟨k, rfl⟩ : ∃ k, fuel = k + 1 := ⟨fuel - 1, by omega⟩
        rw [streamLoop_page_gen w p hp, he]
        exact h1 k (div28_page p hp s _ hf)
      · intro fuel hf
        obtain ⟨k, rfl⟩ : ∃ k, fuel = k + 1 := ⟨fuel - 1, by omega⟩
        rw [streamLoop_page_gen w q hq, hw, he]
        exact h2 k (div28_page q hq t _ hf)
    · refine ⟨⟨some err, ws2, s⟩, ⟨some err, ws2, t⟩, ?_, ?_, rfl, rfl, hlen⟩
      · intro fuel hf
        obtain ⟨k, rfl⟩ : ∃ k, fuel = k + 1 := ⟨fuel - 1, by omega⟩
        rw [streamLoop_page_gen w p hp, he]
      · intro fuel hf
        obtain ⟨k, rfl⟩ : ∃ k, fuel = k + 1 := ⟨fuel - 1, by omega⟩
        rw [streamLoop_page_gen w q hq, hw, he]
  | header f g r hfg hf hr =>
    intro ws
    obtain ⟨vl, v4, v26, vd⟩ := header_views oggs f g r oggs_length hfg hf hr
    obtain ⟨c1, -⟩ := readPage_congr _ _ vl v4 v26 vd
    have h4 : (oggs ++ f ++ r).take 4 = oggs := by
      rw [List.append_assoc]
      exact List.take_left' oggs_length
    have hrp := c1 (Or.inr h4)
    obtain ⟨o, ho⟩ := streamLoop_total w ((oggs ++ f ++ r).length + 1) ws _ (div28_lt _)
    refine ⟨o, o, ho, ?_, rfl, rfl, rfl⟩
    intro fuel hfu
    rw [streamLoop_pos w fuel ws _ hfu, ← hrp,
      ← streamLoop_pos w fuel ws _ (by rw [vl]; exact hfu)]
    exact ho fuel (by rw [vl]; exact hfu)

theorem groups_cons_of_lt (s : Byte) (t cur : List Byte) (h : s < 0xFF) :
    groups (s :: t) cur = (cur ++ [s]) :: groups t [] := by
  rw [groups, if_pos h]

theorem groups_cons_of_not_lt (s : Byte) (t cur : List Byte) (h : ¬ s < 0xFF) :
    groups (s :: t) cur = groups t (cur ++ [s]) := by
  rw [groups, if_neg h]

theorem eq255_of_not_lt (s : Byte) (h : ¬ s < 0xFF) : s = 255 :=
  Fin.ext (val_of_not_lt s h)

theorem all255_snoc (cur : List Byte) (s : Byte) (hc : ∀ x ∈ cur, x = 255)
    (h : ¬ s < 0xFF) : ∀ x ∈ cur ++ [s], x = 255 := by
  intro x hx
  rcases List.mem_append.mp hx with h1 | h1
  · exact hc x h1
  · rw [List.mem_singleton.mp h1]; exact eq255_of_not_lt s h

theorem tableSum_eq_zero (cur : List Byte) (hc : ∀ x ∈ cur, x = 255) :
    tableSum cur = 0 ↔ cur = [] := by
  cases cur with
  | nil => simp [tableSum_nil]
  | cons x cur =>
    have hx : x.val = 255 := by rw [hc x (List.mem_cons_self _ _)]; rfl
    rw [tableSum_cons]
    constructor
    · intro h; omega
    · intro h; simp at h

theorem splitWrites_eq_cut : ∀ (t cur p : List Byte), (∀ x ∈ cur, x = 255) →
    splitWrites t (tableSum cur) p = cut ((groups t cur).map tableSum) p := by
  intro t
  induction t with
  | nil =>
    intro cur p hc
    rw [splitWrites, groups]
    by_cases h0 : cur = []
    · rw [if_pos ((tableSum_eq_zero cur hc).mpr h0), if_pos h0]; rfl
    · rw [if_neg (fun h => h0 ((tableSum_eq_zero cur hc).mp h)), if_neg h0]; rfl
  | cons s t ih =>
    intro cur p hc
    by_cases hs : s < 0xFF
    · rw [splitWrites_cons_of_lt _ _ _ _ hs, groups_cons_of_lt _ _ _ hs]
      have e : tableSum (cur ++ [s]) = tableSum cur + s.val := by
        rw [tableSum_append, tableSum_cons, tableSum_nil, Nat.add_zero]
      have := ih [] (p.drop (tableSum cur + s.val)) (by simp)
      rw [tableSum_nil] at this
      rw [this, List.map_cons, cut, e]
    · rw [splitWrites_cons_of_not_lt _ _ _ _ hs, groups_cons_of_not_lt _ _ _ hs]
      have e : tableSum (cur ++ [s]) = tableSum cur + s.val := by
        rw [tableSum_append, tableSum_cons, tableSum_nil, Nat.add_zero]
      rw [← e]
      exact ih _ p (all255_snoc cur s hc hs)

theorem groups_flatten : ∀ (t cur : List Byte), (groups t cur).flatten = cur ++ t := by
  intro t
  induction t with
  | nil =>
    intro cur
    rw [groups]
    by_cases h0 : cur = []
    · rw [if_pos h0, h0]; rfl
    · rw [if_neg h0]; simp
  | cons s t ih =>
    intro cur
    by_cases hs : s < 0xFF
    · rw [groups_cons_of_lt _ _ _ hs, List.flatten_cons, ih]; simp
    · rw [groups_cons_of_not_lt _ _ _ hs, ih]; simp

theorem groups_shape : ∀ (t cur : List Byte), (∀ x ∈ cur, x = 255) →
    ∀ g ∈ groups t cur, g ≠ [] ∧ ∀ x ∈ g.dropLast, x = 255 := by
  intro t
  induction t with
  | nil =>
    intro cur hc g hg
    rw [groups] at hg
    by_cases h0 : cur = []
    · rw [if_pos h0] at hg; simp at hg
    · rw [if_neg h0, List.mem_singleton] at hg
      subst hg
      exact ⟨h0, fun x hx => hc x (List.dropLast_subset _ hx)⟩
  | cons s t ih =>
    intro cur hc g hg
    by_cases hs : s < 0xFF
    · rw [groups_cons_of_lt _ _ _ hs, List.mem_cons] at hg
      rcases hg with hg | hg
      · subst hg
        refine ⟨by simp, ?_⟩
        rw [List.dropLast_concat]
        exact hc
      · exact ih [] (by simp) g hg
    · rw [groups_cons_of_not_lt _ _ _ hs] at hg
      exact ih _ (all255_snoc cur s hc hs) g hg

theorem mem_dropLast_cons (a g : List Byte) (l : List (List Byte))
    (h : g ∈ (a :: l).dropLast) : (g = a ∧ l ≠ []) ∨ g ∈ l.dropLast := by
  cases l with
  | nil => simp at h
  | cons b l =>
    rw [List.dropLast_cons₂, List.mem_cons] at h
    rcases h with h | h
    · exact Or.inl ⟨h, by simp⟩
    · exact Or.inr h

theorem groups_closed : ∀ (t cur : List Byte),
    ∀ g ∈ (groups t cur).dropLast, ∃ r, g.getLast? = some r ∧ r < 0xFF := by
  intro t
  induction t with
  | nil =>
    intro cur g hg
    rw [groups] at hg
    by_cases h0 : cur = []
    · rw [if_pos h0] at hg; simp at hg
    · rw [if_neg h0] at hg; simp at hg
  | cons s t ih =>
    intro cur g hg
    by_cases hs : s < 0xFF
    · rw [groups_cons_of_lt _ _ _ hs] at hg
      rcases mem_dropLast_cons _ _ _ hg with ⟨h1, -⟩ | h1
      · subst h1
        exact ⟨s, by simp, hs⟩
      · exact ih [] g h1
    · rw [groups_cons_of_not_lt _ _ _ hs] at hg
      exact ih _ g hg

theorem getLast?_all255 (cur : List Byte) (hc : ∀ x ∈ cur, x = 255) (h0 : cur ≠ []) :
    cur.getLast? = some 255 := by
  rw [List.getLast?_eq_getLast cur h0, hc _ (List.getLast_mem h0)]

theorem groups_length : ∀ (t cur : List Byte), (∀ x ∈ cur, x = 255) →
    (groups t cur).length =
      t.countP (fun s => s < 0xFF) + (if (cur ++ t).getLast? = some 255 then 1 else 0) := by
  intro t
  induction t with
  | nil =>
    intro cur hc
    rw [groups, List.append_nil]
    by_cases h0 : cur = []
    · rw [if_pos h0, h0]; simp
    · rw [if_neg h0, getLast?_all255 cur hc h0]; simp
  | cons s t ih =>
    intro cur hc
    by_cases hs : s < 0xFF
    · have hne : s ≠ 255 := by intro h; rw [h] at hs; exact absurd hs (by decide)
      rw [groups_cons_of_lt _ _ _ hs, List.length_cons, ih [] (by simp), List.nil_append,
        List.countP_cons_of_pos _ _ (by simpa using hs)]
      have e : (cur ++ s :: t).getLast? = some 255 ↔ t.getLast? = some 255 := by
        rw [List.getLast?_append]
        cases t with
        | nil => simp [hne]
        | cons x t => simp [List.getLast?_cons_cons]
      by_cases hl : t.getLast? = some 255
      · rw [if_pos hl, if_pos (e.mpr hl)]
      · rw [if_neg hl, if_neg (fun h => hl (e.mp h))]
    · rw [groups_cons_of_not_lt _ _ _ hs, ih _ (all255_snoc cur s hc hs),
        List.countP_cons_of_neg _ _ (by simpa using hs)]
      have e : cur ++ [s] ++ t = cur ++ s :: t := by simp
      rw [e]

theorem cut_length : ∀ (ns : List Nat) (p : List Byte), (cut ns p).length = ns.length := by
  intro ns
  induction ns with
  | nil => intro p; rfl
  | cons n ns ih => intro p; rw [cut, List.length_cons, List.length_cons, ih]

theorem tableSum_flatten : ∀ (l : List (List Byte)),
    tableSum l.flatten = (l.map tableSum).sum := by
  intro l
  induction l with
  | nil => rfl
  | cons g l ih => rw [List.flatten_cons, tableSum_append, ih]; rfl

theorem groups_sum (t : List Byte) : ((groups t []).map tableSum).sum = tableSum t := by
  rw [← tableSum_flatten, groups_flatten, List.nil_append]

theorem emit_grows (w : Writer) : ∀ (new ws ws2 : List (List Byte)) (e : Option Err),
    emit w ws new = (e, ws2) → ∃ pre, ws2 = ws ++ pre ∧ pre.length ≤ new.length ∧
      (e = none → pre = new) := by
  intro new
  induction new with
  | nil =>
    intro ws ws2 e h
    rw [emit] at h
    simp only [Prod.mk.injEq] at h
    exact ⟨[], by rw [← h.2]; simp, by simp, fun _ => rfl⟩
  | cons x new ih =>
    intro ws ws2 e h
    rw [emit] at h
    cases hx : w ws x with
    | some err =>
      rw [hx] at h
      simp only [Prod.mk.injEq] at h
      refine ⟨[x], h.2.symm, by simp, ?_⟩
      intro he
      rw [he] at h
      exact absurd h.1 (by simp)
    | none =>
      rw [hx] at h
      obtain ⟨pre, h1, h2, h3⟩ := ih _ _ _ h
      refine ⟨x :: pre, by rw [h1]; simp, by simp; omega, ?_⟩
      intro he
      rw [h3 he]

theorem splitWrites_length_le : ∀ (t : List Byte) (acc : Nat) (p : List Byte),
    (splitWrites t acc p).length ≤ t.length + (if acc = 0 then 0 else 1) := by
  intro t
  induction t with
  | nil =>
    intro acc p
    rw [splitWrites]
    by_cases h : acc = 0
    · rw [if_pos h, if_pos h]; simp
    · rw [if_neg h, if_neg h]; simp
  | cons s t ih =>
    intro acc p
    by_cases hs : s < 0xFF
    · rw [splitWrites_cons_of_lt _ _ _ _ hs, List.length_cons, List.length_cons]
      have := ih 0 (p.drop (acc + s.val))
      rw [if_pos rfl] at this
      omega
    · rw [splitWrites_cons_of_not_lt _ _ _ _ hs, List.length_cons]
      have := ih (acc + s.val) p
      have h255 := val_of_not_lt s hs
      rw [if_neg (by omega)] at this
      omega

theorem streamBody_progress (w : Writer) (ws : List (List Byte)) (src b : List Byte) :
    (∀ ws2 src2 b2, streamBody w ws src b = Iter.next ws2 src2 b2 →
      src2.length + 28 ≤ src.length ∧ ws2.length ≤ ws.length + (src.getD 26 0).val) ∧
    (∀ r, streamBody w ws src b = Iter.stop r →
      ∃ o, r = Run.done o ∧ o.writes.length ≤ ws.length + (src.getD 26 0).val) := by
  unfold streamBody
  cases hr : readPage src with
  | fail err rest =>
    refine ⟨fun ws2 src2 b2 h => by simp at h, ?_⟩
    intro r h
    simp only [Iter.stop.injEq] at h
    exact ⟨_, h.symm, by simp⟩
  | page t p rest =>
    have hl := readPage_page_length src t p rest hr
    obtain ⟨-, -, ht1, htl, -, -⟩ := readPage_page src t p rest hr
    have hsl := splitWrites_length_le t 0 p
    rw [if_pos rfl] at hsl
    simp only
    rcases he : emit w ws (splitWrites t 0 p) with ⟨e, ws3⟩
    obtain ⟨pre, h1, h2, -⟩ := emit_grows w _ _ _ _ he
    have hw3 : ws3.length ≤ ws.length + (src.getD 26 0).val := by
      rw [h1, List.length_append]; omega
    cases e with
    | none =>
      refine ⟨?_, fun r h => by simp at h⟩
      intro ws2 src2 b2 h
      simp only [Iter.next.injEq] at h
      obtain ⟨e1, e2, -⟩ := h
      rw [← e1, ← e2]
      exact ⟨by omega, hw3⟩
    | some err =>
      refine ⟨fun ws2 src2 b2 h => by simp at h, ?_⟩
      intro r h
      simp only [Iter.stop.injEq] at h
      exact ⟨_, h.symm, hw3⟩

theorem segLoop_advances (t : List Byte) (fuel ixseg e : Nat) (h1 : ixseg < t.length)
    (h2 : t.length - ixseg ≤ fuel) :
    ∃ i2 e2, segLoop t t.length fuel ixseg e = Run.done (i2, e2) ∧
      ixseg < i2 ∧ i2 ≤ t.length := by
  refine ⟨_, _, segLoop_eq t fuel ixseg e (by omega) h2, ?_, ?_⟩
  · have hd := List.drop_eq_getElem_cons h1
    have := scan_fst_pos t[ixseg] (t.drop (ixseg + 1))
    rw [← hd] at this
    omega
  · have := scan_fst_le (t.drop ixseg)
    rw [List.length_drop] at this
    omega

theorem pageLoop_total (w : Writer) (src buffer : List Byte) (hb : MaxPageSize ≤ buffer.length) :
    ∃ o, ∀ fuel, src.length / 28 < fuel → pageLoop w fuel [] src buffer = Run.done o := by
  obtain ⟨o, ho⟩ := streamLoop_total w (src.length + 1) [] src (div28_lt src)
  exact ⟨o, fun fuel hf => by rw [pageLoop_eq_streamLoop w _ _ _ _ hb]; exact ho fuel hf⟩

theorem decode_total (w : Writer) (src buffer : List Byte) (hb : MaxPageSize ≤ buffer.length) :
    ∃ o, decode w src buffer = Run.done o := by
  obtain ⟨o, ho⟩ := pageLoop_total w src buffer hb
  have h27 : HeaderSize ≤ buffer.length := by
    rw [MaxPageSize_eq] at hb
    simp only [HeaderSize]; omega
  refine ⟨o, ?_⟩
  unfold decode
  rw [slice_eq _ _ _ (Nat.zero_le _) h27]
  exact ho _ (div28_lt src)

theorem Decode_total (w : Writer) (src : List Byte) : ∃ o, Decode w src = Run.done o := by
  obtain ⟨o, -, ho⟩ := decodeStream_total w src
  exact ⟨_, by rw [Decode_eq_decodeStream, ho, finish_done]⟩

theorem pageBody_observe (w : Writer) (ws : List (List Byte)) (src buffer : List Byte)
    (hb : MaxPageSize ≤ buffer.length) :
    (pageBody w ws src buffer).observe = (streamBody w ws src []).observe := by
  obtain ⟨b, -, hbody⟩ := pageBody_eq w ws src buffer hb
  rw [hbody]
  unfold streamBody
  cases readPage src with
  | fail err rest => rfl
  | page t p rest =>
    simp only
    rcases emit w ws (splitWrites t 0 p) with ⟨_ | e, ws2⟩ <;> rfl

/-! ## The claims -/

/-- C1 (round trip).  Take any packets, each of at most `MaxPacketSize` bytes, and any
pages that are complete and valid (capture pattern `OggS`, 22 arbitrary bytes of header
fields, 1 to 255 lacing values, payload as long as the sum of the table) whose segment
tables, concatenated, are the standard lacing of the packets and whose payloads,
concatenated, are the bytes of the packets.  With a sink that accepts every write,
`Decode` returns `nil` after reading the whole stream, and the bytes it wrote, in write
order, are the bytes of the packets in their order. -/
theorem C1_round_trip (packets : List (List Byte)) (pages : List Page)
    (hlen : ∀ pk ∈ packets, pk.length ≤ MaxPacketSize)
    (hvalid : ∀ p ∈ pages, p.valid)
    (htable : (pages.map Page.table).flatten = (packets.map lacing).flatten)
    (hpayload : (pages.map Page.payload).flatten = packets.flatten) :
    ∃ writes, Decode okWriter (encodePages pages) = Run.done ⟨none, writes, []⟩ ∧
      writes.flatten = packets.flatten :=
  ⟨pagesWrites pages, Decode_pages pages hvalid,
    by rw [pagesWrites_flatten pages hvalid, hpayload]⟩

/-- Witness of C1: the packets `[1,2,3]`, `[4]` and `[]` laid out into a page with the
table `[3, 1]` and a page with the table `[0]`. -/
theorem C1_round_trip_witness :
    (∀ pk ∈ c1Packets, pk.length ≤ MaxPacketSize) ∧ (∀ p ∈ c1Pages, p.valid) ∧
    (c1Pages.map Page.table).flatten = (c1Packets.map lacing).flatten ∧
    (c1Pages.map Page.payload).flatten = c1Packets.flatten ∧
    ∃ writes, Decode okWriter (encodePages c1Pages) = Run.done ⟨none, writes, []⟩ ∧
      writes.flatten = c1Packets.flatten :=
  ⟨by decide, by decide, by decide, by decide,
    C1_round_trip c1Packets c1Pages (by decide) (by decide) (by decide) (by decide)⟩

set_option maxRecDepth 100000 in
/-- C2, evaluated where the code departs from it.  The packet of 300 bytes, laced as
`[255, 45]` and laid across a page with the table `[255]` and a page with the table `[45]`,
is not handed to the sink as a packet: `Decode` makes two `Write` calls, of 255 and of 45
bytes.  The same packet with both lacing values on one page is stitched together and
written as one `Write` of 300 bytes. -/
theorem C2_spanning_packet_is_split :
    (∀ p ∈ c2Pages, p.valid) ∧
    (c2Pages.map Page.table).flatten = ([c2Packet].map lacing).flatten ∧
    (c2Pages.map Page.payload).flatten = [c2Packet].flatten ∧
    Decode okWriter (encodePages c2Pages) =
      Run.done ⟨none, [List.replicate 255 7, List.replicate 45 7], []⟩ ∧
    Decode okWriter (encodePages c2Pages) ≠ Run.done ⟨none, [c2Packet], []⟩ ∧
    c2OnePage.valid ∧ c2OnePage.table = lacing c2Packet ∧ c2OnePage.payload = c2Packet ∧
    Decode okWriter (encodePages [c2OnePage]) = Run.done ⟨none, [c2Packet], []⟩ := by
  have hv : ∀ p ∈ c2Pages, p.valid := by decide
  have hd : Decode okWriter (encodePages c2Pages) =
      Run.done ⟨none, [List.replicate 255 7, List.replicate 45 7], []⟩ := by
    rw [Decode_pages c2Pages hv]
    decide
  have hv1 : ∀ p ∈ [c2OnePage], p.valid := by decide
  have hd1 : Decode okWriter (encodePages [c2OnePage]) = Run.done ⟨none, [c2Packet], []⟩ := by
    rw [Decode_pages [c2OnePage] hv1]
    decide
  refine ⟨hv, by decide, by decide, hd, ?_, by decide, by decide, by decide, hd1⟩
  rw [hd]
  decide

/-- Where no packet goes on into the next page, the writes are the packets.  Take any
packets and any complete valid pages whose segment tables, concatenated, are the standard
lacing of the packets, whose payloads, concatenated, are the bytes of the packets, and in
which every page ends with a lacing value below 255.  With a sink that accepts every
write, `Decode` returns `nil` and the sequence of its `Write` calls is exactly the
sequence of the packets. -/
theorem writes_are_packets_of_closed_pages (packets : List (List Byte)) (pages : List Page)
    (hvalid : ∀ p ∈ pages, p.valid)
    (hclosed : ∀ p ∈ pages, endsPacket p.table)
    (htable : (pages.map Page.table).flatten = (packets.map lacing).flatten)
    (hpayload : (pages.map Page.payload).flatten = packets.flatten) :
    Decode okWriter (encodePages pages) = Run.done ⟨none, packets, []⟩ := by
  rw [Decode_pages pages hvalid, pagesWrites_eq_splitWrites pages hvalid hclosed, htable,
    hpayload, splitWrites_packets]

/-- C3 (page-spanning packet).  A packet lies across `k = mids.length + 2` consecutive
pages.  The page `first` holds earlier packets (the table `pre`, empty or ending below
255, with the payload `prePayload`) and then `a1 ≥ 1` lacing values 255 of the packet,
with the bytes `c1`; every page of `mids` has only lacing values 255 and carries its whole
payload for the packet; the page `last` starts with `ak ≥ 0` values 255 and the
terminating value `r < 255` of the packet, with the bytes `ck`, followed by later packets
(the table `post` with the payload `postPayload`).  Any valid pages may come before and
after.  With a sink that accepts every write, `Decode` returns `nil` and writes the packet
as exactly `k` separate `Write` calls, one per page and in page order: `c1`, the payload of
each page of `mids`, `ck`.  They stand between the writes of what comes before the packet
and the writes of what comes after it, and their concatenation is the packet. -/
theorem C3_page_spanning_packet (before mids after : List Page) (first last : Page)
    (pre prePayload c1 ck post postPayload : List Byte) (a1 ak : Nat) (r : Byte)
    (hbefore : ∀ p ∈ before, p.valid) (hfirst : first.valid)
    (hmids : ∀ p ∈ mids, p.valid) (hlast : last.valid) (hafter : ∀ p ∈ after, p.valid)
    (hft : first.table = pre ++ List.replicate a1 255)
    (hfp : first.payload = prePayload ++ c1)
    (hpre : endsPacket pre) (hprelen : prePayload.length = tableSum pre) (ha1 : 1 ≤ a1)
    (hmid : ∀ p ∈ mids, ∀ s ∈ p.table, s = 255)
    (hlt : last.table = List.replicate ak 255 ++ r :: post)
    (hlp : last.payload = ck ++ postPayload)
    (hr : r < 255) (hck : ck.length = 255 * ak + r.val) :
    Decode okWriter (encodePages (before ++ (first :: mids) ++ (last :: after))) =
      Run.done ⟨none,
        pagesWrites before ++ splitWrites pre 0 prePayload ++
          (c1 :: mids.map Page.payload ++ [ck]) ++
          splitWrites post 0 postPayload ++ pagesWrites after, []⟩ ∧
    (c1 :: mids.map Page.payload ++ [ck]).length = mids.length + 2 ∧
    (c1 :: mids.map Page.payload ++ [ck]).flatten =
      c1 ++ (mids.map Page.payload).flatten ++ ck := by
  have hall : ∀ p ∈ before ++ (first :: mids) ++ (last :: after), p.valid := by
    intro p hp
    simp only [List.mem_append, List.mem_cons] at hp
    rcases hp with (h | h | h) | h | h
    · exact hbefore p h
    · rw [h]; exact hfirst
    · exact hmids p h
    · rw [h]; exact hlast
    · exact hafter p h
  have hc1 : c1.length = tableSum (List.replicate a1 255) := by
    obtain ⟨-, -, -, hp⟩ := hfirst
    rw [hft, hfp, List.length_append, tableSum_append] at hp
    omega
  have hfw : first.writes = splitWrites pre 0 prePayload ++ [c1] := by
    rw [Page.writes, hft, hfp, splitWrites_append _ _ pre 0 prePayload (fun _ => rfl) hpre
      (by omega), splitWrites_all255 _ _ _ (fun s hs => (List.mem_replicate.mp hs).2)
      (fun h0 => by
        have := congrArg List.length h0
        simp at this; omega), Nat.zero_add, ← hc1, List.take_length]
  have hlw : last.writes = ck :: splitWrites post 0 postPayload := by
    rw [Page.writes, hlt, hlp, splitWrites_run_then ak r hr post ck postPayload hck]
  refine ⟨?_, by simp, by simp⟩
  rw [Decode_pages _ hall]
  have e : before ++ (first :: mids) ++ (last :: after) =
      before ++ ([first] ++ (mids ++ ([last] ++ after))) := by simp
  rw [e, pagesWrites_append, pagesWrites_append, pagesWrites_append, pagesWrites_append,
    pagesWrites_all255 mids hmids hmid]
  have e1 : pagesWrites [first] = first.writes := by simp [pagesWrites]
  have e2 : pagesWrites [last] = last.writes := by simp [pagesWrites]
  rw [e1, e2, hfw, hlw]
  simp

set_option maxRecDepth 100000 in
/-- Witness of C3: a packet of 600 bytes on a page with the table `[255]` and a page with
the table `[255, 90]` is written as two writes, of 255 and of 345 bytes. -/
theorem C3_page_spanning_packet_witness :
    c3First.valid ∧ c3Last.valid ∧
    c3First.table = [] ++ List.replicate 1 255 ∧
    c3Last.table = List.replicate 1 255 ++ 90 :: [] ∧
    (Decode okWriter (encodePages [c3First, c3Last]) =
      Run.done ⟨none, [List.replicate 255 1, List.replicate 345 2], []⟩) ∧
    (List.replicate 255 (1 : Byte)).length = 255 ∧
    (List.replicate 345 (2 : Byte)).length = 345 :=
  ⟨by decide, by decide, rfl, rfl,
    (C3_page_spanning_packet [] [] [] c3First c3Last [] [] (List.replicate 255 1)
      (List.replicate 345 2) [] [] 1 1 90 (by simp) (by decide) (by simp) (by decide)
      (by simp) rfl rfl (by decide) rfl (by decide) (by simp) rfl rfl (by decide)
      (by rw [List.length_replicate]; rfl)).1,
    by simp, by simp⟩

/-- C4 (zero-length terminator).  A valid page has the table `n` times 255, then 0, then
`post` (so `n ≤ 254`), and the payload `c ++ postPayload` where `c` are the `255 * n`
bytes of the first `n` segments.  Any valid pages may come before and after.  With a sink
that accepts every write, `Decode` returns `nil`; for this page it makes one write of the
`255 * n` bytes `c`, closed by the 0, and then the writes of the segments `post`, which
start anew after it.  When nothing follows the 0 in the table, the page gives exactly one
write, its whole payload of `255 * n` bytes; for `n = 0` this is one write of zero bytes. -/
theorem C4_zero_length_terminator (before after : List Page) (pg : Page) (n : Nat)
    (c post postPayload : List Byte)
    (hbefore : ∀ p ∈ before, p.valid) (hpg : pg.valid) (hafter : ∀ p ∈ after, p.valid)
    (ht : pg.table = List.replicate n 255 ++ 0 :: post)
    (hp : pg.payload = c ++ postPayload) (hc : c.length = 255 * n) :
    n ≤ 254 ∧
    Decode okWriter (encodePages (before ++ pg :: after)) =
      Run.done ⟨none,
        pagesWrites before ++ c :: splitWrites post 0 postPayload ++ pagesWrites after, []⟩ ∧
    (post = [] → pg.writes = [pg.payload] ∧ pg.payload.length = 255 * n) := by
  have hall : ∀ p ∈ before ++ pg :: after, p.valid := by
    intro p hq
    simp only [List.mem_append, List.mem_cons] at hq
    rcases hq with h | h | h
    · exact hbefore p h
    · rw [h]; exact hpg
    · exact hafter p h
  have hw : pg.writes = c :: splitWrites post 0 postPayload := by
    rw [Page.writes, ht, hp, splitWrites_run_then n 0 (by decide) post c postPayload
      (by rw [hc]; rfl)]
  obtain ⟨-, -, h255, hpl⟩ := hpg
  refine ⟨?_, ?_, ?_⟩
  · rw [ht] at h255
    simp only [List.length_append, List.length_replicate, List.length_cons] at h255
    omega
  · have e : before ++ pg :: after = before ++ ([pg] ++ after) := by simp
    have e1 : pagesWrites [pg] = pg.writes := by simp [pagesWrites]
    rw [Decode_pages _ hall, e, pagesWrites_append, pagesWrites_append, e1, hw]
    simp
  · intro h0
    subst h0
    rw [ht, hp, tableSum_append, tableSum_replicate, tableSum_cons, tableSum_nil,
      List.length_append] at hpl
    have hq : postPayload = [] := List.length_eq_zero.mp (by
      have : (0 : Byte).val = 0 := rfl
      omega)
    subst hq
    rw [hw, hp]
    simp [splitWrites, hc]

set_option maxRecDepth 100000 in
/-- Witness of C4: the page with the table `[255, 255, 0]` gives one write of 510 bytes. -/
theorem C4_zero_length_terminator_witness :
    c4Page.valid ∧ c4Page.table = List.replicate 2 255 ++ 0 :: [] ∧
    Decode okWriter (encodePages [c4Page]) = Run.done ⟨none, [List.replicate 510 3], []⟩ ∧
    (List.replicate 510 (3 : Byte)).length = 510 :=
  ⟨by decide, rfl,
    (C4_zero_length_terminator [] [] c4Page 2 (List.replicate 510 3) [] [] (by simp)
      (by decide) (by simp) rfl rfl (by simp)).2.1,
    by simp⟩

/-- C5 (clean end of stream).  For every source that is the concatenation of zero or more
complete valid pages and nothing more, and a sink that accepts every write, `Decode`
returns `nil`, and so does `DecodeBuf` with any buffer of at least `MaxPageSize` bytes,
after the writes of the pages and with the source read to its end.  On the empty source
`Decode` returns `nil` without a write. -/
theorem C5_clean_end_of_stream (pages : List Page) (buf : List Byte)
    (hvalid : ∀ p ∈ pages, p.valid) (hbuf : MaxPageSize ≤ buf.length) :
    Decode okWriter (encodePages pages) = Run.done ⟨none, pagesWrites pages, []⟩ ∧
    DecodeBuf okWriter (encodePages pages) buf = Run.done ⟨none, pagesWrites pages, []⟩ ∧
    Decode okWriter [] = Run.done ⟨none, [], []⟩ := by
  refine ⟨Decode_pages pages hvalid, ?_, Decode_pages [] (by simp)⟩
  rw [DecodeBuf_eq_decodeStream _ _ _ hbuf, ← Decode_eq_decodeStream]
  exact Decode_pages pages hvalid

/-- Witness of C5: one page with the table `[2, 0, 1]`, decoded with a buffer of
`MaxPageSize` bytes. -/
theorem C5_clean_end_of_stream_witness :
    (∀ p ∈ [smallPage], p.valid) ∧ MaxPageSize ≤ (List.replicate MaxPageSize (7 : Byte)).length ∧
    Decode okWriter (encodePages [smallPage]) = Run.done ⟨none, [[7, 8], [], [9]], []⟩ ∧
    DecodeBuf okWriter (encodePages [smallPage]) (List.replicate MaxPageSize 7) =
      Run.done ⟨none, [[7, 8], [], [9]], []⟩ :=
  ⟨by decide, by rw [List.length_replicate],
    (C5_clean_end_of_stream [smallPage] (List.replicate MaxPageSize 7) (by decide)
      (by rw [List.length_replicate])).1,
    (C5_clean_end_of_stream [smallPage] (List.replicate MaxPageSize 7) (by decide)
      (by rw [List.length_replicate])).2.1⟩

/-- C6, evaluated where the code departs from it.  A source that ends right after a valid
header announcing one segment, and a source that ends right after the segment table `[5]`
with none of its 5 payload bytes, both make `Decode` return `nil`: `io.ReadFull` reports
`io.EOF` when it could read no byte at all, and `DecodeBuf` turns every `io.EOF` into
`nil`.  With 2 of the 5 payload bytes present the result is `io.ErrUnexpectedEOF`. -/
theorem C6_truncation_returns_nil :
    Decode okWriter cutAfterHeader = Run.done ⟨none, [], []⟩ ∧
    Decode okWriter cutAfterTable = Run.done ⟨none, [], []⟩ ∧
    Decode okWriter cutInPayload = Run.done ⟨some Err.ErrUnexpectedEOF, [], []⟩ := by
  rw [Decode_eq_decodeStream, Decode_eq_decodeStream, Decode_eq_decodeStream]
  decide

/-- C7 (truncation inside the header).  For every source made of zero or more complete
valid pages followed by `m ≤ 26` further bytes, whatever they are, and a sink that accepts
every write: when `1 ≤ m`, `Decode` returns `io.ErrUnexpectedEOF`, and when `m = 0` it
returns `nil`; in both cases after the writes of the complete pages. -/
theorem C7_header_truncation (pages : List Page) (tail : List Byte)
    (hvalid : ∀ p ∈ pages, p.valid) (hm : tail.length ≤ 26) :
    Decode okWriter (encodePages pages ++ tail) =
      Run.done ⟨if tail.length = 0 then none else some Err.ErrUnexpectedEOF,
        pagesWrites pages, []⟩ := by
  obtain ⟨k, hk⟩ := Decode_pages_tail pages hvalid tail
  rw [hk, streamLoop_short _ _ _ _ hm]
  by_cases h0 : tail.length = 0
  · simp [shortRead, finish, h0]
  · simp [shortRead, finish, h0]

/-- Witness of C7: one valid page followed by 10 bytes gives `io.ErrUnexpectedEOF`. -/
theorem C7_header_truncation_witness :
    (∀ p ∈ [smallPage], p.valid) ∧ (List.replicate 10 (79 : Byte)).length ≤ 26 ∧
    Decode okWriter (encodePages [smallPage] ++ List.replicate 10 79) =
      Run.done ⟨some Err.ErrUnexpectedEOF, [[7, 8], [], [9]], []⟩ :=
  ⟨by decide, by decide,
    C7_header_truncation [smallPage] (List.replicate 10 79) (by decide) (by decide)⟩

/-- C8 (malformed capture pattern).  For every source made of zero or more complete valid
pages followed by at least 27 bytes whose first 4 are not `OggS`, and a sink that accepts
every write, `Decode` returns the invalid-header error built from these 27 bytes, which is
neither `ErrBadSegs` nor an end-of-stream error, whatever the byte at offset 26 is.  It has
made the writes of the complete pages only and has read the 27 bytes and no more. -/
theorem C8_malformed_capture_pattern (pages : List Page) (bad : List Byte)
    (hvalid : ∀ p ∈ pages, p.valid) (h27 : 27 ≤ bad.length) (hc : bad.take 4 ≠ oggs) :
    Decode okWriter (encodePages pages ++ bad) =
      Run.done ⟨some (Err.invalidOggs (bad.take 27)), pagesWrites pages, bad.drop 27⟩ := by
  obtain ⟨k, hk⟩ := Decode_pages_tail pages hvalid bad
  rw [hk, streamLoop_badCapture _ _ _ _ h27 hc]
  rfl

/-- Witness of C8: a valid page followed by a header that starts with `OggX` and has a
segment count of 0. -/
theorem C8_malformed_capture_pattern_witness :
    (∀ p ∈ [smallPage], p.valid) ∧ 27 ≤ badHeader.length ∧ badHeader.take 4 ≠ oggs ∧
    Decode okWriter (encodePages [smallPage] ++ badHeader) =
      Run.done ⟨some (Err.invalidOggs (badHeader.take 27)), [[7, 8], [], [9]], [4, 5, 6]⟩ :=
  ⟨by decide, by decide, by decide,
    C8_malformed_capture_pattern [smallPage] badHeader (by decide) (by decide) (by decide)⟩

/-- C9 (zero segment count).  For every source made of zero or more complete valid pages
followed by a header of 27 bytes with the capture pattern `OggS` and 0 at offset 26, and
then any bytes `rest`, and a sink that accepts every write, `Decode` returns `ErrBadSegs`.
It has made the writes of the complete pages only, and it has read exactly the 27 header
bytes of the failing page: all of `rest` is left in the source. -/
theorem C9_zero_segment_count (pages : List Page) (fields rest : List Byte)
    (hvalid : ∀ p ∈ pages, p.valid) (hf : fields.length = 22) :
    Decode okWriter (encodePages pages ++ (oggs ++ fields ++ [0] ++ rest)) =
      Run.done ⟨some Err.ErrBadSegs, pagesWrites pages, rest⟩ := by
  obtain ⟨k, hk⟩ := Decode_pages_tail pages hvalid (oggs ++ fields ++ [0] ++ rest)
  rw [hk, streamLoop_zeroSegs _ _ _ _ _ hf]
  rfl

/-- Witness of C9: a valid page, then a header with a segment count of 0, then 3 bytes. -/
theorem C9_zero_segment_count_witness :
    (∀ p ∈ [smallPage], p.valid) ∧ (List.replicate 22 (5 : Byte)).length = 22 ∧
    Decode okWriter (encodePages [smallPage] ++ (oggs ++ List.replicate 22 5 ++ [0] ++ [1, 2, 3])) =
      Run.done ⟨some Err.ErrBadSegs, [[7, 8], [], [9]], [1, 2, 3]⟩ :=
  ⟨by decide, by decide,
    C9_zero_segment_count [smallPage] (List.replicate 22 5) [1, 2, 3] (by decide)
      (by decide)⟩

/-- C10 (buffer size enforcement).  For every sink, source and buffer: `DecodeBuf` returns
the buffer-too-small error, with no write made and no byte of the source read, exactly
when `len(buf) < MaxPageSize`; with a buffer of `MaxPageSize` bytes or more it never
returns that error, and it does what `Decode` does. -/
theorem C10_buffer_size_enforcement (w : Writer) (src buf : List Byte) :
    (DecodeBuf w src buf = Run.done ⟨some Err.bufferTooSmall, [], src⟩ ↔
      buf.length < MaxPageSize) ∧
    (MaxPageSize ≤ buf.length →
      (∀ o, DecodeBuf w src buf = Run.done o → o.err ≠ some Err.bufferTooSmall) ∧
      DecodeBuf w src buf = Decode w src) := by
  have hge : MaxPageSize ≤ buf.length →
      (∀ o, DecodeBuf w src buf = Run.done o → o.err ≠ some Err.bufferTooSmall) ∧
      DecodeBuf w src buf = Decode w src := by
    intro hb
    rw [DecodeBuf_eq_decodeStream _ _ _ hb, Decode_eq_decodeStream]
    refine ⟨?_, rfl⟩
    intro o ho
    rw [decodeStream_eq_finish] at ho
    exact finish_ne_bufferTooSmall _ o (streamLoop_ne_bufferTooSmall w _ _ _) ho
  refine ⟨⟨?_, ?_⟩, hge⟩
  · intro h
    by_contra hn
    exact (hge (by omega)).1 _ h rfl
  · intro h
    rw [DecodeBuf, if_pos h]

/-- Witness of C10: a buffer of `MaxPageSize - 1` bytes. -/
theorem C10_buffer_size_enforcement_witness :
    (List.replicate (MaxPageSize - 1) (0 : Byte)).length < MaxPageSize ∧
    DecodeBuf okWriter (encodePages [smallPage]) (List.replicate (MaxPageSize - 1) 0) =
      Run.done ⟨some Err.bufferTooSmall, [], encodePages [smallPage]⟩ :=
  ⟨by rw [List.length_replicate, MaxPageSize_eq]; decide,
    (C10_buffer_size_enforcement okWriter (encodePages [smallPage])
      (List.replicate (MaxPageSize - 1) 0)).1.mpr
      (by rw [List.length_replicate, MaxPageSize_eq]; decide)⟩

/-- C13 (wire-format constants).  `HeaderSize` is 27, `MaxSegmentSize` is 255,
`MaxPacketSize` is `255 * 255 = 65025`, `MaxPageSize` is
`HeaderSize + MaxSegmentSize + MaxPacketSize = 65307`, the capture pattern is the four
bytes `'O'`, `'g'`, `'g'`, `'S'` (79, 103, 103, 83), and `pageHeader.Read`, given a header of
27 bytes, takes the segment count from the byte at offset 26, counted from zero. -/
theorem C13_wire_format_constants :
    HeaderSize = 27 ∧ MaxSegmentSize = 255 ∧ MaxPacketSize = 255 * 255 ∧
    MaxPacketSize = 65025 ∧ MaxPageSize = HeaderSize + MaxSegmentSize + MaxPacketSize ∧
    MaxPageSize = 65307 ∧
    oggs = ['O', 'g', 'g', 'S'].map (fun c => Fin.ofNat c.toNat) ∧
    oggs = [79, 103, 103, 83] ∧
    (∀ (ph : pageHeader) (b : List Byte) (h : b.length = 27),
      pageHeader.Read ph b = (⟨b.get ⟨26, by omega⟩⟩, 27, none)) := by
  refine ⟨rfl, rfl, rfl, by decide, rfl, MaxPageSize_eq, rfl, by decide, ?_⟩
  intro ph b h
  have hg : b.getD 26 0 = b.get ⟨26, by omega⟩ := by
    rw [List.getD_eq_getElem?_getD, List.getElem?_eq_getElem (by omega)]
    rfl
  simp only [pageHeader.Read, h, HeaderSize, ne_eq, not_true_eq_false, if_false, hg]

/-- Witness of C13: on the header `c13Header`, `pageHeader.Read` gives the segment count 3,
the byte at offset 26. -/
theorem C13_wire_format_constants_witness :
    c13Header.length = 27 ∧ pageHeader.Read ⟨0⟩ c13Header = (⟨3⟩, 27, none) :=
  ⟨by decide, (C13_wire_format_constants.2.2.2.2.2.2.2.2) ⟨0⟩ c13Header (by decide)⟩

/-- Counterexample to C14 as stated: `MaxPageSize` is not 65587, and a buffer of 65307
bytes, which is shorter than 65587 bytes, does not make `DecodeBuf` fail with the
buffer-too-small error: on the empty source it returns `nil`. -/
theorem C14_counterexample :
    MaxPageSize ≠ 65587 ∧ 27 + 255 + 255 * 255 ≠ 65587 ∧
    (List.replicate 65307 (0 : Byte)).length < 65587 ∧
    DecodeBuf okWriter [] (List.replicate 65307 0) = Run.done ⟨none, [], []⟩ := by
  refine ⟨by rw [MaxPageSize_eq]; decide, by decide, by rw [List.length_replicate]; decide, ?_⟩
  rw [DecodeBuf_eq_decodeStream _ _ _ (by rw [List.length_replicate, MaxPageSize_eq])]
  decide

/-- C14, amended.  The buffer-size threshold of `DecodeBuf`, `MaxPageSize`, equals
`27 + 255 + 255 * 255 = 65307` bytes: for every sink and source, `DecodeBuf` fails with the
buffer-too-small error, with no write made and the source untouched, for every buffer
shorter than 65307 bytes. -/
theorem C14_buffer_threshold (w : Writer) (src buf : List Byte) (h : buf.length < 65307) :
    MaxPageSize = 27 + 255 + 255 * 255 ∧ MaxPageSize = 65307 ∧
    DecodeBuf w src buf = Run.done ⟨some Err.bufferTooSmall, [], src⟩ := by
  refine ⟨by rw [MaxPageSize_eq], MaxPageSize_eq, ?_⟩
  rw [DecodeBuf, if_pos (by rw [MaxPageSize_eq]; exact h)]

/-- Witness of the amended C14: a buffer of 65306 bytes. -/
theorem C14_buffer_threshold_witness :
    (List.replicate 65306 (0 : Byte)).length < 65307 ∧
    DecodeBuf okWriter [1, 2, 3] (List.replicate 65306 0) =
      Run.done ⟨some Err.bufferTooSmall, [], [1, 2, 3]⟩ :=
  ⟨by rw [List.length_replicate]; decide,
    (C14_buffer_threshold okWriter [1, 2, 3] (List.replicate 65306 0)
      (by rw [List.length_replicate]; decide)).2.2⟩

/-- C11 (sink write failure).  First part: the source starts with the valid pages `pre`
and the valid page `p`, followed by any bytes `tail`; the writes of `pre` and the writes
`a` of `p` succeed, and the next write `d` of `p` fails with the error `e`.  Then `Decode`
returns the error that wraps `e`, also when `e` is `io.EOF`; the `Write` calls made are
those up to and including the failing one, so the later writes `b` of the page and those
of later pages are not made; and all of `tail` is left unread, so no further page is read.
Second part, for every source `src` whatever it holds: `Decode` returns, and a `Write`
call of its run that failed with an error is the last call of the run and the returned
error wraps that error. -/
theorem C11_sink_failure (w : Writer) (src : List Byte) (pre : List Page) (p : Page)
    (tail : List Byte) (a b : List (List Byte)) (d : List Byte) (e : Err)
    (hpre : ∀ q ∈ pre, q.valid) (hp : p.valid) (hw : p.writes = a ++ d :: b)
    (hacc : accepted w (pagesWrites pre ++ a))
    (hfail : w (pagesWrites pre ++ a) d = some e) :
    Decode w (encodePages pre ++ p.encode ++ tail) =
      Run.done ⟨some (Err.writeFailed e), pagesWrites pre ++ a ++ [d], tail⟩ ∧
    (∃ o, Decode w src = Run.done o ∧
      ∀ (i : Nat) (h : i < o.writes.length) (e2 : Err),
        w (o.writes.take i) o.writes[i] = some e2 →
        i + 1 = o.writes.length ∧ o.err = some (Err.writeFailed e2)) := by
  constructor
  · have hl := encodePages_length_ge pre hpre
    have e1 : (encodePages pre ++ p.encode ++ tail).length + 1 =
        pre.length + (((encodePages pre ++ p.encode ++ tail).length - pre.length) + 1) := by
      simp only [List.length_append]; omega
    have hacc0 : accepted w ([] ++ pagesWrites pre) := by
      rw [List.nil_append]; exact accepted_left w _ _ hacc
    rw [Decode_eq_decodeStream, decodeStream_eq_finish, e1, List.append_assoc,
      streamLoop_pages_gen w pre hpre _ _ _ hacc0, List.nil_append,
      streamLoop_page_gen w p hp, hw, emit_of_failed w d b e a _ hacc hfail]
    rfl
  · obtain ⟨o1, ho1⟩ := streamLoop_total w (src.length + 1) [] src (div28_lt src)
    have hrun := ho1 _ (div28_lt src)
    have htr := streamLoop_trace w _ _ _ _ (accepted_nil w) hrun
    refine ⟨⟨if o1.err = some Err.EOF then none else o1.err, o1.writes, o1.rest⟩, ?_, ?_⟩
    · rw [Decode_eq_decodeStream, decodeStream_eq_finish, hrun, finish_done]
    · intro i h e2 hi
      simp only at h hi
      rcases htr with hacc1 | ⟨ws, d1, e1, hws, hacc1, hd1, herr⟩
      · rw [hacc1 i h] at hi
        exact absurd hi (by simp)
      · have hlen : o1.writes.length = ws.length + 1 := by rw [hws]; simp
        by_cases hlt : i < ws.length
        · have h3 := hacc1 i hlt
          have e3 : o1.writes.take i = ws.take i := by
            rw [hws, List.take_append_of_le_length (by omega)]
          have e4 : o1.writes[i] = ws[i] := by
            simp only [hws]
            exact List.getElem_append_left hlt
          rw [e3, e4, h3] at hi
          exact absurd hi (by simp)
        · have hi2 : i = ws.length := by omega
          subst hi2
          have e3 : o1.writes.take ws.length = ws := by
            rw [hws, List.take_left' rfl]
          have e4 : o1.writes[ws.length] = d1 := by
            simp only [hws]
            exact getElem_mid ws d1 [] (by simp)
          rw [e3, e4, hd1] at hi
          simp only [Option.some.injEq] at hi
          rw [← hi]
          refine ⟨?_, ?_⟩
          · show ws.length + 1 = o1.writes.length
            omega
          · simp only [herr]
            rfl

/-- Witness of C11: two copies of the page with the table `[2, 0, 1]` and a sink whose
second `Write` fails with `io.EOF`.  `Decode` returns the error wrapping `io.EOF` after
two `Write` calls, and the second page is left unread. -/
theorem C11_sink_failure_witness :
    (∀ q ∈ ([] : List Page), q.valid) ∧ smallPage.valid ∧
    smallPage.writes = [[7, 8]] ++ [] :: [[9]] ∧
    accepted failSecond (pagesWrites [] ++ [[7, 8]]) ∧
    failSecond (pagesWrites [] ++ [[7, 8]]) [] = some Err.EOF ∧
    Decode failSecond (encodePages [] ++ smallPage.encode ++ smallPage.encode) =
      Run.done ⟨some (Err.writeFailed Err.EOF), [[7, 8], []], smallPage.encode⟩ :=
  ⟨by decide, by decide, by decide, by decide, by decide,
    (C11_sink_failure failSecond [] [] smallPage smallPage.encode [[7, 8]] [[9]] [] Err.EOF
      (by decide) (by decide) (by decide) (by decide) (by decide)).1⟩

/-- C16 (a failure leaves exactly the output of the earlier pages).  For every sink and
every source made of complete valid pages followed by a tail on which reading the next
page fails (see `failingTail`: bad capture pattern, segment count 0, or a stream that ends
inside the header, the segment table or the payload), `Decode` returns, and the `Write`
calls it has made are exactly those that `Decode` makes on the pages alone.  When the sink
accepts the writes of the pages, these calls are the writes of the pages: the failing page
adds no write, also when part of its payload was there. -/
theorem C16_failure_keeps_earlier_output (w : Writer) (pages : List Page) (tail : List Byte)
    (hvalid : ∀ p ∈ pages, p.valid) (htail : failingTail tail) :
    ∃ o o2, Decode w (encodePages pages ++ tail) = Run.done o ∧
      Decode w (encodePages pages) = Run.done o2 ∧ o.writes = o2.writes ∧
      (accepted w (pagesWrites pages) → o.writes = pagesWrites pages) := by
  obtain ⟨err, rest, ht⟩ := readPage_failingTail tail htail
  obtain ⟨o, ho, hw⟩ := Decode_pages_writes w pages hvalid tail err rest ht
  obtain ⟨o2, ho2, hw2⟩ := Decode_pages_writes w pages hvalid [] Err.EOF [] readPage_nil
  rw [List.append_nil] at ho2
  refine ⟨o, o2, ho, ho2, by rw [hw, hw2], ?_⟩
  intro ha
  rw [hw, emit_of_accepted w _ _ (by rw [List.nil_append]; exact ha)]
  rfl

/-- Witness of C16: a valid page followed by a header, the segment table `[5]` and 2 of the
5 payload bytes.  The writes are those of the valid page. -/
theorem C16_failure_keeps_earlier_output_witness :
    (∀ p ∈ [smallPage], p.valid) ∧ failingTail cutInPayload ∧
    accepted okWriter (pagesWrites [smallPage]) ∧
    ∃ o o2, Decode okWriter (encodePages [smallPage] ++ cutInPayload) = Run.done o ∧
      Decode okWriter (encodePages [smallPage]) = Run.done o2 ∧ o.writes = o2.writes ∧
      (accepted okWriter (pagesWrites [smallPage]) → o.writes = pagesWrites [smallPage]) :=
  have ht : failingTail cutInPayload :=
    Or.inr (Or.inr (Or.inr (Or.inr
      ⟨List.replicate 22 0, [5], [1, 2], by decide, by decide, by decide, by decide, rfl⟩)))
  ⟨by decide, ht, by decide,
    C16_failure_keeps_earlier_output okWriter [smallPage] cutInPayload (by decide) ht⟩

/-- C12 (uninterpreted header fields).  For every sink and every two sources that differ
only in header bytes at offsets 4 to 25 of their pages (see `sameButFields`: the complete
valid pages, and a last page that has the capture pattern but is cut short or not valid),
`Decode` returns on both, with the same result, after the same sequence of writes, and
leaves the same number of bytes unread.  So of the header bytes only the bytes 0 to 3 and
the byte 26 bear on what `Decode` does. -/
theorem C12_header_fields_uninterpreted (w : Writer) (s t : List Byte)
    (h : sameButFields s t) :
    ∃ o1 o2, Decode w s = Run.done o1 ∧ Decode w t = Run.done o2 ∧
      o1.err = o2.err ∧ o1.writes = o2.writes ∧ o1.rest.length = o2.rest.length := by
  obtain ⟨o1, o2, h1, h2, he, hw, hr⟩ := streamLoop_sameButFields w s t h []
  refine ⟨⟨if o1.err = some Err.EOF then none else o1.err, o1.writes, o1.rest⟩,
    ⟨if o2.err = some Err.EOF then none else o2.err, o2.writes, o2.rest⟩, ?_, ?_, ?_, hw, hr⟩
  · rw [Decode_eq_decodeStream, decodeStream_eq_finish, h1 _ (div28_lt s), finish_done]
  · rw [Decode_eq_decodeStream, decodeStream_eq_finish, h2 _ (div28_lt t), finish_done]
  · simp only [he]

/-- Witness of C12: the page with the table `[2, 0, 1]`, once with header fields all 0 and
once with header fields all 9, followed by a header with the segment count 1, once with
header fields all 0 and once with header fields all 5, then the segment table `[5]` and 2
of the 5 payload bytes.  Both runs make the writes of the first page and return
`io.ErrUnexpectedEOF`. -/
theorem C12_header_fields_uninterpreted_witness :
    sameButFields (smallPage.encode ++ (oggs ++ List.replicate 22 0 ++ [1, 5, 1, 2]))
      (smallPage2.encode ++ (oggs ++ List.replicate 22 5 ++ [1, 5, 1, 2])) ∧
    (∃ o1 o2,
      Decode okWriter (smallPage.encode ++ (oggs ++ List.replicate 22 0 ++ [1, 5, 1, 2])) =
        Run.done o1 ∧
      Decode okWriter (smallPage2.encode ++ (oggs ++ List.replicate 22 5 ++ [1, 5, 1, 2])) =
        Run.done o2 ∧
      o1.err = o2.err ∧ o1.writes = o2.writes ∧ o1.rest.length = o2.rest.length) ∧
    Decode okWriter (smallPage.encode ++ (oggs ++ List.replicate 22 0 ++ [1, 5, 1, 2])) =
      Run.done ⟨some Err.ErrUnexpectedEOF, [[7, 8], [], [9]], []⟩ ∧
    Decode okWriter (smallPage2.encode ++ (oggs ++ List.replicate 22 5 ++ [1, 5, 1, 2])) =
      Run.done ⟨some Err.ErrUnexpectedEOF, [[7, 8], [], [9]], []⟩ :=
  have hs : sameButFields (smallPage.encode ++ (oggs ++ List.replicate 22 0 ++ [1, 5, 1, 2]))
      (smallPage2.encode ++ (oggs ++ List.replicate 22 5 ++ [1, 5, 1, 2])) :=
    sameButFields.page smallPage smallPage2 _ _ (by decide) (by decide) rfl rfl
      (sameButFields.header (List.replicate 22 0) (List.replicate 22 5) [1, 5, 1, 2]
        (by decide) (by decide) (by decide))
  ⟨hs, C12_header_fields_uninterpreted okWriter _ _ hs,
    by rw [Decode_eq_decodeStream]; decide, by rw [Decode_eq_decodeStream]; decide⟩

/-- C15 (write structure of a page).  Take a valid page `pg` with the table `t` and the
payload `p`, with any valid pages before and after it, and a sink that accepts every
write.  The writes that `Decode` makes for the page are the consecutive, non-overlapping
slices of `p`, in order, whose lengths are the sums of the successive groups of `t`
(`cut` and `groups`).  The groups, concatenated, are `t`; every group is a run of values
255 followed by at most one other value; every group but the last is closed by a value
below 255, so that only a trailing run of 255s can be left unclosed and no write holds
bytes of two packets.  The number of writes of the page is the number of values below 255
in `t`, plus 1 when the last value of `t` is 255; it is at least 1; and the writes of the
page, concatenated, are `p`. -/
theorem C15_page_write_structure (before after : List Page) (pg : Page)
    (hbefore : ∀ p ∈ before, p.valid) (hpg : pg.valid) (hafter : ∀ p ∈ after, p.valid) :
    Decode okWriter (encodePages (before ++ pg :: after)) =
      Run.done ⟨none, pagesWrites before ++
        cut ((groups pg.table []).map tableSum) pg.payload ++ pagesWrites after, []⟩ ∧
    (groups pg.table []).flatten = pg.table ∧
    (∀ g ∈ groups pg.table [], g ≠ [] ∧ ∀ x ∈ g.dropLast, x = 255) ∧
    (∀ g ∈ (groups pg.table []).dropLast, ∃ r, g.getLast? = some r ∧ r < 255) ∧
    (cut ((groups pg.table []).map tableSum) pg.payload).length =
      pg.table.countP (fun s => s < 255) +
        (if pg.table.getLast? = some 255 then 1 else 0) ∧
    1 ≤ (cut ((groups pg.table []).map tableSum) pg.payload).length ∧
    (cut ((groups pg.table []).map tableSum) pg.payload).flatten = pg.payload := by
  have hall : ∀ p ∈ before ++ pg :: after, p.valid := by
    intro p hq
    simp only [List.mem_append, List.mem_cons] at hq
    rcases hq with h | h | h
    · exact hbefore p h
    · rw [h]; exact hpg
    · exact hafter p h
  have hw : pg.writes = cut ((groups pg.table []).map tableSum) pg.payload := by
    have := splitWrites_eq_cut pg.table [] pg.payload (by simp)
    rw [tableSum_nil] at this
    exact this
  have hlen : (cut ((groups pg.table []).map tableSum) pg.payload).length =
      (groups pg.table []).length := by
    rw [cut_length, List.length_map]
  have hfl := groups_flatten pg.table []
  rw [List.nil_append] at hfl
  refine ⟨?_, hfl, groups_shape pg.table [] (by simp), groups_closed pg.table [], ?_, ?_, ?_⟩
  · have e : before ++ pg :: after = before ++ ([pg] ++ after) := by simp
    have e1 : pagesWrites [pg] = pg.writes := by simp [pagesWrites]
    rw [Decode_pages _ hall, e, pagesWrites_append, pagesWrites_append, e1, hw]
    simp
  · rw [hlen, groups_length pg.table [] (by simp), List.nil_append]
  · rw [hlen]
    obtain ⟨-, h1, -, -⟩ := hpg
    cases hg : groups pg.table [] with
    | nil =>
      rw [hg] at hfl
      rw [← hfl] at h1
      simp at h1
    | cons g gs => simp
  · rw [← hw]; exact pg.writes_flatten hpg

set_option maxRecDepth 100000 in
/-- Witness of C15: the page with the table `[255, 3, 0, 255, 255]` and 768 bytes of
payload gives three writes, of 258, 0 and 510 bytes. -/
theorem C15_page_write_structure_witness :
    c15Page.valid ∧ groups c15Page.table [] = [[255, 3], [0], [255, 255]] ∧
    Decode okWriter (encodePages ([] ++ c15Page :: [])) =
      Run.done ⟨none, pagesWrites [] ++
        cut ((groups c15Page.table []).map tableSum) c15Page.payload ++ pagesWrites [], []⟩ ∧
    cut ((groups c15Page.table []).map tableSum) c15Page.payload =
      [List.replicate 258 4, [], List.replicate 510 4] :=
  ⟨by decide, by decide,
    (C15_page_write_structure [] [] c15Page (by simp) (by decide) (by simp)).1, by decide⟩

/-- C17 (slicing safety).  With a scratch buffer of at least `MaxPageSize` bytes, for every
sink and source: `decode` returns, so its run meets no slice or index expression out of
range (which would end it in `Run.panic`), and no iteration of the page loop, from any
state, ends in a panic.  For a table `t` of 1 to 255 lacing values the sum is at most
`MaxPacketSize = 65025`, so `HeaderSize + len t + sum t ≤ MaxPageSize ≤ len(buffer)`.  For
a table `t` and a payload `p` of `sum t` bytes, the packet loop ends without a panic, so at
every write `start ≤ end ≤ len(packetBuf)`; with a sink that accepts every write, its
writes are the consecutive slices of `p` that start at 0 and whose lengths add up to
`len p`, so `end` is `len(packetBuf)` after the last write. -/
theorem C17_slicing_safety (w : Writer) (src buffer t p : List Byte)
    (ws : List (List Byte)) (hb : MaxPageSize ≤ buffer.length) :
    (∃ o, decode w src buffer = Run.done o) ∧
    (∀ (ws2 : List (List Byte)) (s : List Byte), pageBody w ws2 s buffer ≠ Iter.stop Run.panic) ∧
    (1 ≤ t.length → t.length ≤ 255 →
      tableSum t ≤ MaxPacketSize ∧ HeaderSize + t.length + tableSum t ≤ MaxPageSize ∧
      HeaderSize + t.length + tableSum t ≤ buffer.length) ∧
    (1 ≤ t.length → p.length = tableSum t →
      (∃ r, packetLoop w t p t.length t.length ws 0 0 0 = Run.done r) ∧
      packetLoop okWriter t p t.length t.length ws 0 0 0 =
        Run.done (none, ws ++ cut ((groups t []).map tableSum) p) ∧
      ((groups t []).map tableSum).sum = p.length) := by
  refine ⟨decode_total w src buffer hb, ?_, ?_, ?_⟩
  · intro ws2 s h
    obtain ⟨b, -, hbody⟩ := pageBody_eq w ws2 s buffer hb
    rw [hbody] at h
    obtain ⟨o, ho, -⟩ := (streamBody_progress w ws2 s b).2 _ h
    exact absurd ho (by simp)
  · intro h1 h255
    have hs := tableSum_le t
    have hm : 255 * t.length ≤ 255 * 255 := Nat.mul_le_mul_left 255 h255
    rw [MaxPageSize_eq] at hb
    have e1 : MaxPacketSize = 65025 := by decide
    rw [MaxPageSize_eq, e1]
    simp only [HeaderSize]
    omega
  · intro h1 hp
    have hpl : ∀ w2 : Writer, packetLoop w2 t p t.length t.length ws 0 0 0 =
        Run.done (emit w2 ws (splitWrites t 0 p)) := by
      intro w2
      have := packetLoop_eq w2 t p t.length ws 0 0 (by omega) (by omega)
        (by simp only [List.drop_zero]; omega)
      simpa using this
    refine ⟨⟨_, hpl w⟩, ?_, ?_⟩
    · have hc := splitWrites_eq_cut t [] p (by simp)
      rw [tableSum_nil] at hc
      rw [hpl okWriter, emit_okWriter, hc]
    · rw [groups_sum, hp]

/-- Witness of C17: a buffer of exactly `MaxPageSize` bytes and the table `[2, 0, 1]`. -/
theorem C17_slicing_safety_witness :
    MaxPageSize ≤ (List.replicate MaxPageSize (0 : Byte)).length ∧
    (∃ o, decode okWriter (encodePages [smallPage]) (List.replicate MaxPageSize 0) =
      Run.done o) ∧
    packetLoop okWriter [2, 0, 1] [7, 8, 9] 3 3 [] 0 0 0 = Run.done (none, [[7, 8], [], [9]]) :=
  ⟨by rw [List.length_replicate],
    (C17_slicing_safety okWriter (encodePages [smallPage]) (List.replicate MaxPageSize 0)
      [2, 0, 1] [7, 8, 9] [] (by rw [List.length_replicate])).1,
    ((C17_slicing_safety okWriter (encodePages [smallPage]) (List.replicate MaxPageSize 0)
      [2, 0, 1] [7, 8, 9] [] (by rw [List.length_replicate])).2.2.2 (by decide)
      (by decide)).2.1⟩

/-- C18 (termination).  For every sink and every finite source `Decode` returns.  With a
scratch buffer of at least `MaxPageSize` bytes, the page loop of `decode` gives one and
the same result on every budget of more than `len(src) / 28` iterations; an iteration of
the page loop that does not return leaves at least 28 bytes fewer in the source and has
made at most as many writes as the segment count at offset 26, and so has an iteration
that returns; and a run of the inner segment loop that starts below the segment count
advances the segment index by at least one, never past the segment count. -/
theorem C18_termination (w : Writer) (src buffer : List Byte)
    (hb : MaxPageSize ≤ buffer.length) :
    (∃ o, Decode w src = Run.done o) ∧
    (∃ o, ∀ fuel, src.length / 28 < fuel → pageLoop w fuel [] src buffer = Run.done o) ∧
    (∀ (ws ws2 : List (List Byte)) (s s2 b2 : List Byte),
      pageBody w ws s buffer = Iter.next ws2 s2 b2 →
      s2.length + 28 ≤ s.length ∧ ws2.length ≤ ws.length + (s.getD 26 0).val) ∧
    (∀ (ws : List (List Byte)) (s : List Byte) (r : Run Outcome),
      pageBody w ws s buffer = Iter.stop r →
      ∃ o, r = Run.done o ∧ o.writes.length ≤ ws.length + (s.getD 26 0).val) ∧
    (∀ (t : List Byte) (ixseg e : Nat), ixseg < t.length →
      ∃ i2 e2, segLoop t t.length (t.length - ixseg) ixseg e = Run.done (i2, e2) ∧
        ixseg < i2 ∧ i2 ≤ t.length) := by
  refine ⟨Decode_total w src, pageLoop_total w src buffer hb, ?_, ?_, ?_⟩
  · intro ws ws2 s s2 b2 h
    obtain ⟨b, -, hbody⟩ := pageBody_eq w ws s buffer hb
    rw [hbody] at h
    exact (streamBody_progress w ws s b).1 _ _ _ h
  · intro ws s r h
    obtain ⟨b, -, hbody⟩ := pageBody_eq w ws s buffer hb
    rw [hbody] at h
    exact (streamBody_progress w ws s b).2 _ h
  · intro t ixseg e h
    exact segLoop_advances t _ ixseg e h (Nat.le_refl _)

/-- Witness of C18: a buffer of exactly `MaxPageSize` bytes and a source of two pages. -/
theorem C18_termination_witness :
    MaxPageSize ≤ (List.replicate MaxPageSize (0 : Byte)).length ∧
    ∃ o, Decode okWriter (encodePages [smallPage, smallPage2]) = Run.done o :=
  ⟨by rw [List.length_replicate],
    (C18_termination okWriter (encodePages [smallPage, smallPage2])
      (List.replicate MaxPageSize 0) (by rw [List.length_replicate])).1⟩

/-- C19 (independence of the scratch buffer).  For every sink and source and every two
buffers of at least `MaxPageSize` bytes, of any contents and lengths, `DecodeBuf` gives
the same outcome (result, writes, bytes left unread) with either buffer, which is the
outcome of `Decode`.  Moreover every iteration of the page loop, from any state, shows the
same with either buffer: it stops with the same result or goes on with the same writes and
the same source.  So what an iteration checks or writes does not depend on what the buffer
held when the iteration began, be it bytes of the caller or of an earlier page. -/
theorem C19_buffer_independence (w : Writer) (src b1 b2 : List Byte)
    (h1 : MaxPageSize ≤ b1.length) (h2 : MaxPageSize ≤ b2.length) :
    DecodeBuf w src b1 = DecodeBuf w src b2 ∧ DecodeBuf w src b1 = Decode w src ∧
    (∃ o, DecodeBuf w src b1 = Run.done o) ∧
    (∀ (ws : List (List Byte)) (s : List Byte),
      (pageBody w ws s b1).observe = (pageBody w ws s b2).observe) := by
  refine ⟨?_, ?_, ?_, ?_⟩
  · rw [DecodeBuf_eq_decodeStream _ _ _ h1, DecodeBuf_eq_decodeStream _ _ _ h2]
  · rw [DecodeBuf_eq_decodeStream _ _ _ h1, Decode_eq_decodeStream]
  · obtain ⟨o, ho⟩ := Decode_total w src
    exact ⟨o, by rw [DecodeBuf_eq_decodeStream _ _ _ h1, ← Decode_eq_decodeStream, ho]⟩
  · intro ws s
    rw [pageBody_observe w ws s b1 h1, pageBody_observe w ws s b2 h2]

/-- Witness of C19: a buffer of `MaxPageSize` bytes 0 and a buffer of `MaxPageSize + 5`
bytes 7. -/
theorem C19_buffer_independence_witness :
    MaxPageSize ≤ (List.replicate MaxPageSize (0 : Byte)).length ∧
    MaxPageSize ≤ (List.replicate (MaxPageSize + 5) (7 : Byte)).length ∧
    DecodeBuf okWriter (encodePages [smallPage]) (List.replicate MaxPageSize 0) =
      DecodeBuf okWriter (encodePages [smallPage]) (List.replicate (MaxPageSize + 5) 7) :=
  ⟨by rw [List.length_replicate], by rw [List.length_replicate]; omega,
    (C19_buffer_independence okWriter (encodePages [smallPage]) (List.replicate MaxPageSize 0)
      (List.replicate (MaxPageSize + 5) 7) (by rw [List.length_replicate])
      (by rw [List.length_replicate]; omega)).1⟩

end Oggreader
